import Mathlib

/-!
# Verification of the suggestion-to-location matching and patch engine

Shallow embedding of `frontend/utils/patch.ts` (`locateBullet`,
`buildPatchFromRewrites`, `applyPatchLocal`) and of the patch-store
transitions of `resume-rewriter/frontend/components/InlineDiffPanel.tsx`
(`acceptOpFor`, `rejectOpFor`, `acceptAll`, `resetAll`).

Modelling conventions:
* JSON documents are the inductive `Json` below; JavaScript objects are
  association lists of own data properties (prototype-chain names such as
  `toString` or array `length` are outside the model), arrays are lists,
  numbers are integers.  `undefined` is `Option.none`; a thrown JavaScript
  `TypeError` is `Except.error`.
* JavaScript string operations are modelled on `String.data` (code points):
  `split("/")` is `splitSlash`, `trim()` is `jsTrim` (ASCII whitespace),
  `includes` is `jsIncludes`, `slice` is `List.take`.  All recursion is
  structural so every definition evaluates by kernel reduction.
* The numeric-segment test `isFinite(Number(s)) ? Number(s) : s` is modelled
  by `parseDecInt`, covering optionally-negated decimal integer literals —
  the only numeric form the engine ever produces.  Exotic `Number` syntax
  (`"1e3"`, hex, surrounding whitespace) is outside the model.
* `JSON.parse(JSON.stringify(x))` (the defensive deep clone at the top of
  `applyPatchLocal`) is the identity on `Json` values; immutability of the
  input document is automatic in a pure embedding.
-/

namespace PatchEngine

/-- ASCII whitespace trimmed by JavaScript `String.prototype.trim`
(Unicode space classes are outside the model). -/
def jsWsChar (c : Char) : Bool :=
  c = ' ' || c = '\t' || c = '\n' || c = '\r' || c = '\x0b' || c = '\x0c'

/-- Trim `jsWsChar` characters from both ends of a character list. -/
def trimChars (cs : List Char) : List Char :=
  ((cs.dropWhile jsWsChar).reverse.dropWhile jsWsChar).reverse

/-- Model of JavaScript `String.prototype.trim`. -/
def jsTrim (s : String) : String := String.mk (trimChars s.data)

/-- Does `s` start with `p`? (code-point model of a JS prefix test). -/
def startsWithChars : List Char → List Char → Bool
  | [], _ => true
  | _ :: _, [] => false
  | p :: ps, c :: cs => p = c && startsWithChars ps cs

/-- Does `s` contain `pat` as a contiguous substring?  Model of
JavaScript `String.prototype.includes`. -/
def containsChars (pat : List Char) : List Char → Bool
  | [] => startsWithChars pat []
  | c :: cs => startsWithChars pat (c :: cs) || containsChars pat cs

/-- `s.includes(frag)` from the fuzzy pass of `locateBullet`. -/
def jsIncludes (s frag : String) : Bool := containsChars frag.data s.data

/-- Model of JavaScript `path.split("/")`: split a character list at every
`'/'` (single-character separator, so the structural fold is exact). -/
def splitSlash : List Char → List (List Char)
  | [] => [[]]
  | c :: cs =>
      let r := splitSlash cs
      if c = '/' then [] :: r
      else (c :: r.headI) :: r.tail

/-- `op.path.split("/").filter(Boolean)` from `applyPatchLocal`:
the list of non-empty path segments. -/
def pathParts (s : String) : List String :=
  ((splitSlash s.data).map String.mk).filter (fun seg => seg ≠ "")

/-- Numeric value of a list of decimal digits (most significant first). -/
def digitsVal (cs : List Char) : Nat :=
  cs.foldl (fun a c => 10 * a + (c.toNat - 48)) 0

/-- Parse a non-empty all-digit character list as a natural number. -/
def parseDecNat (cs : List Char) : Option Nat :=
  if cs ≠ [] ∧ cs.all Char.isDigit then some (digitsVal cs) else none

/-- Model of the JavaScript test `isFinite(Number(s))` together with the
conversion `Number(s)`, on the decimal-integer fragment actually reachable
from this engine (all paths it builds use non-negative decimal indices). -/
def parseDecInt (cs : List Char) : Option Int :=
  match cs with
  | [] => none
  | c :: rest =>
      if c = '-' then (parseDecNat rest).map (fun n => -(n : Int))
      else (parseDecNat (c :: rest)).map (fun n => (n : Int))

/-- A property key as used by `applyPatchLocal`:
`isFinite(Number(part)) ? Number(part) : part`. -/
inductive JsKey where
  | num (n : Int)
  | str (s : String)
deriving DecidableEq, Repr

/-- Convert one path segment to the key `applyPatchLocal` indexes with. -/
def segKey (s : String) : JsKey :=
  match parseDecInt s.data with
  | some n => JsKey.num n
  | none => JsKey.str s

/-- The key list an operation's path denotes (each loop iteration of
`applyPatchLocal` converts one segment with the `isFinite(Number(_))` test). -/
def kpath (path : String) : List JsKey := (pathParts path).map segKey

/-- The property name a key coerces to (JavaScript `ToPropertyKey`):
numbers become their decimal string. -/
def keyStr : JsKey → String
  | .num n => Int.repr n
  | .str s => s

/-- JSON documents.  Objects are ordered association lists of own
data properties; arrays are lists; numbers are integers. -/
inductive Json where
  | null
  | bool (b : Bool)
  | num (n : Int)
  | str (s : String)
  | arr (elems : List Json)
  | obj (fields : List (String × Json))

/-- First binding of a field name in an object (JS own-property lookup). -/
def getField : List (String × Json) → String → Option Json
  | [], _ => none
  | (k, v) :: rest, name => if k = name then some v else getField rest name

/-- Replace the first binding of a field name, leaving others untouched
(JS property assignment to an existing own property). -/
def setField : List (String × Json) → String → Json → List (String × Json)
  | [], _, _ => []
  | (k, v) :: rest, name, w =>
      if k = name then (k, w) :: rest else (k, v) :: setField rest name w

/-- JavaScript truthiness of a value (`cursor && ...`). -/
def truthy : Json → Bool
  | .null => false
  | .bool b => b
  | .num n => n ≠ 0
  | .str s => s ≠ ""
  | .arr _ => true
  | .obj _ => true

/-- One step `cursor[key]` of the traversal loop of `applyPatchLocal`.
`none` is JavaScript `undefined`; member access on `null` throws a
`TypeError`.  Numeric access into a string yields the character at that
index, as in JavaScript. -/
def jsAccess : Json → JsKey → Except String (Option Json)
  | .null, _ => .error "TypeError: cannot read properties of null"
  | .obj l, k => .ok (getField l (keyStr k))
  | .arr xs, .num n => .ok (if n < 0 then none else xs[n.toNat]?)
  | .arr _, .str _ => .ok none
  | .str s, .num n =>
      .ok (if n < 0 then none
           else (s.data[n.toNat]?).map (fun c => Json.str (String.mk [c])))
  | .str _, .str _ => .ok none
  | .num _, _ => .ok none
  | .bool _, _ => .ok none

/-- Assignment `cursor[key] = v` on a container, identity elsewhere
(`applyPatchLocal` only assigns after `lastKey in cursor` succeeded, which
requires a container). -/
def jsSet : Json → JsKey → Json → Json
  | .obj l, k, v => .obj (setField l (keyStr k) v)
  | .arr xs, .num n, v => .arr (if n < 0 then xs else xs.set n.toNat v)
  | .arr xs, .str _, _ => .arr xs
  | .null, _, _ => .null
  | .bool b, _, _ => .bool b
  | .num n, _, _ => .num n
  | .str s, _, _ => .str s

/-- The final step of one operation of `applyPatchLocal`:
`if (cursor && lastKey in cursor) cursor[lastKey] = op.value`.
A falsy cursor skips; on a truthy primitive the `in` operator throws a
`TypeError`; on a container the leaf is replaced only when the key is an
existing own property / in-range index. -/
def finalAssign (doc : Json) (k : JsKey) (v : String) : Except String Json :=
  match doc with
  | .null => .ok .null
  | .bool false => .ok (.bool false)
  | .bool true => .error "TypeError: cannot use in operator on a primitive"
  | .num n =>
      if n = 0 then .ok (.num n)
      else .error "TypeError: cannot use in operator on a primitive"
  | .str s =>
      if s = "" then .ok (.str s)
      else .error "TypeError: cannot use in operator on a primitive"
  | .obj l =>
      if (getField l (keyStr k)).isSome
      then .ok (.obj (setField l (keyStr k) (.str v)))
      else .ok (.obj l)
  | .arr xs =>
      match k with
      | .num n =>
          if 0 ≤ n ∧ n.toNat < xs.length
          then .ok (.arr (xs.set n.toNat (.str v)))
          else .ok (.arr xs)
      | .str _ => .ok (.arr xs)

/-- One replace operation of `applyPatchLocal`, over its key list: walk all
segments but the last through `cursor[key]` (breaking to a silent skip on
`undefined`), then run `finalAssign` with the last key.  An empty segment
list makes `parts[parts.length-1]` the JavaScript `undefined`, which `in`
coerces to the property name `"undefined"`. -/
def writeAtK : Json → List JsKey → String → Except String Json
  | doc, [], v => finalAssign doc (JsKey.str "undefined") v
  | doc, [k], v => finalAssign doc k v
  | doc, k :: k2 :: rest, v =>
      match jsAccess doc k with
      | .error e => .error e
      | .ok none => .ok doc
      | .ok (some sub) =>
          match writeAtK sub (k2 :: rest) v with
          | .error e => .error e
          | .ok sub2 => .ok (jsSet doc k sub2)

/-- `JsonPatchOp` from `types/jsonPatch.ts` (the `op` field is the literal
type `"replace"` there; we keep the string so the dispatch test of
`applyPatchLocal` stays visible). -/
structure JsonPatchOp where
  op : String
  path : String
  value : String
deriving DecidableEq, Repr

/-- One iteration of the `for (const op of patch)` loop of
`applyPatchLocal`: non-`replace` operations are skipped by `continue`. -/
def applyOp (doc : Json) (o : JsonPatchOp) : Except String Json :=
  if o.op = "replace" then writeAtK doc (kpath o.path) o.value else .ok doc

/-- `applyPatchLocal` from `frontend/utils/patch.ts`: fold the operations
over the (cloned) document; a thrown `TypeError` aborts the whole
application, a silent skip leaves the document unchanged. -/
def applyPatchLocal (doc : Json) : List JsonPatchOp → Except String Json
  | [] => .ok doc
  | o :: rest =>
      match applyOp doc o with
      | .error e => .error e
      | .ok d2 => applyPatchLocal d2 rest

/-! ## The location matcher and patch builder -/

/-- One entry of the `work` array: `{ highlights?: string[] }`
(the `highlights` field may be absent). -/
structure WorkItem where
  highlights : Option (List String)

/-- `work?.[w]?.highlights || []`. -/
def bulletsOf (item : WorkItem) : List String := item.highlights.getD []

/-- The used-set key `` `${w}:${i}` `` of `locateBullet` /
`buildPatchFromRewrites`. -/
def mkKey (w i : Nat) : String := Nat.repr w ++ ":" ++ Nat.repr i

/-- The JSON-pointer path `` `/work/${w}/highlights/${i}` `` built by
`buildPatchFromRewrites`. -/
def mkPath (w i : Nat) : String :=
  "/work/" ++ Nat.repr w ++ "/highlights/" ++ Nat.repr i

/-- The inner `for (let i ...)` loop of `locateBullet`: scan one
`highlights` row from index `i`, skipping used keys, returning the first
bullet passing `test`. -/
def rowFind (test : String → Bool) (used : List String) (w : Nat) :
    Nat → List String → Option (Nat × Nat)
  | _, [] => none
  | i, h :: rest =>
      if mkKey w i ∈ used then rowFind test used w (i + 1) rest
      else if test h then some (w, i)
      else rowFind test used w (i + 1) rest

/-- The outer `for (let w ...)` loop of `locateBullet`: scan the entries in
document order starting at index `w`. -/
def workScan (test : String → Bool) (used : List String) :
    Nat → List WorkItem → Option (Nat × Nat)
  | _, [] => none
  | w, item :: rest =>
      match rowFind test used w 0 (bulletsOf item) with
      | some loc => some loc
      | none => workScan test used (w + 1) rest

/-- `locateBullet` from `frontend/utils/patch.ts`: exact (trimmed-equality)
pass first, then the fuzzy first-20-characters containment pass. -/
def locateBullet (before : String) (work : List WorkItem) (used : List String) :
    Option (Nat × Nat) :=
  let needle := jsTrim before
  let exactHit := workScan (fun h => jsTrim h == needle) used 0 work
  let fragment := String.mk (before.data.take (min 20 before.data.length))
  exactHit.or (workScan (fun h => jsIncludes h fragment) used 0 work)

/-- `Rewrite` from `types/jsonPatch.ts` (the optional `reason` field plays
no role in the engine and is omitted). -/
structure Rewrite where
  before : String
  after : String
deriving DecidableEq, Repr

/-- One entry of the suggestion→address `mapping` built by
`buildPatchFromRewrites`. -/
structure MapEntry where
  workIdx : Nat
  idx : Nat
  before : String
  after : String
deriving DecidableEq, Repr

/-- The loop of `buildPatchFromRewrites`, with the accumulated `used` set
made explicit: on a hit mark the location used and emit a patch entry and a
mapping entry; on a miss drop the suggestion silently. -/
def buildAux (work : List WorkItem) :
    List Rewrite → List String → List JsonPatchOp × List MapEntry
  | [], _ => ([], [])
  | r :: rs, used =>
      match locateBullet r.before work used with
      | none => buildAux work rs used
      | some (w, i) =>
          let rest := buildAux work rs (mkKey w i :: used)
          (⟨"replace", mkPath w i, r.after⟩ :: rest.1,
           ⟨w, i, r.before, r.after⟩ :: rest.2)

/-- `buildPatchFromRewrites` from `frontend/utils/patch.ts`, over the
(already extracted) `work` array.  Returns `(patch, mapping)`. -/
def buildPatchFromRewrites (rewrites : List Rewrite) (work : List WorkItem) :
    List JsonPatchOp × List MapEntry :=
  buildAux work rewrites []

/-! ## The patch store (`InlineDiffPanel.tsx`) -/

/-- The store state: the accepted pending operations (`pendingPatch`) and
the rejected paths (`dismissedPaths`). -/
structure StoreState where
  pending : List JsonPatchOp
  dismissed : List String
deriving DecidableEq, Repr

/-- The empty store a fresh panel starts from. -/
def initStore : StoreState := ⟨[], []⟩

/-- The four user transitions of `InlineDiffPanel`. -/
inductive StoreAction where
  | accept (path value : String)
  | reject (path : String)
  | acceptAll
  | reset
deriving DecidableEq, Repr

/-- One store transition.  `accept` is `acceptOpFor` (filter out any pending
operation at the path, append the new one, drop the path from `dismissed`);
`reject` is `rejectOpFor`; `acceptAll` installs the panel's `fullPatch`
wholesale and clears `dismissed`; `reset` clears both. -/
def stepStore (fullPatch : List JsonPatchOp) (s : StoreState) :
    StoreAction → StoreState
  | .accept path value =>
      { pending := s.pending.filter (fun p => p.path ≠ path) ++
          [⟨"replace", path, value⟩]
        dismissed :=
          if path ∈ s.dismissed then s.dismissed.filter (fun q => q ≠ path)
          else s.dismissed }
  | .reject path =>
      { pending := s.pending.filter (fun p => p.path ≠ path)
        dismissed :=
          if path ∈ s.dismissed then s.dismissed else s.dismissed ++ [path] }
  | .acceptAll => { pending := fullPatch, dismissed := [] }
  | .reset => { pending := [], dismissed := [] }

/-- Run a sequence of user actions from the empty store;
`fullPatch` is the panel's memoised `buildPatchFromRewrites` result. -/
def runStore (fullPatch : List JsonPatchOp) (acts : List StoreAction) :
    StoreState :=
  acts.foldl (stepStore fullPatch) initStore

/-- The state invariant of the store (spec §3): no address key is both
pending and dismissed, and `pending` holds at most one operation per
address key. -/
def storeInv (s : StoreState) : Prop :=
  (s.pending.map (fun p => p.path)).Nodup ∧
    ∀ o ∈ s.pending, o.path ∉ s.dismissed

/-! ## Specification-side definitions (for refinement statements) -/

/-- The `highlights` row of entry `w` (empty when out of range / absent). -/
def rowOf (work : List WorkItem) (w : Nat) : List String :=
  (work[w]?.map bulletsOf).getD []

/-- The canonical scan order of the spec, from entry index `w` on:
entries in document order, bullets in document order within each entry. -/
def locsAux : List WorkItem → Nat → List (Nat × Nat)
  | [], _ => []
  | item :: rest, w =>
      (List.range (bulletsOf item).length).map (fun i => (w, i)) ++
        locsAux rest (w + 1)

/-- The canonical scan order of the spec: entries in document order,
bullets in document order within each entry. -/
def locsOf (work : List WorkItem) : List (Nat × Nat) := locsAux work 0

/-- The bullet text at a location (junk `""` out of range). -/
def bulletAt (work : List WorkItem) (p : Nat × Nat) : String :=
  ((rowOf work p.1)[p.2]?).getD ""

/-- Is a location outside the used set? -/
def freeAt (used : List String) (p : Nat × Nat) : Bool :=
  !(decide (mkKey p.1 p.2 ∈ used))

/-- The location matcher as §4.2 of the spec words it: a first (exact,
trimmed-equality) pass over every unused bullet in canonical order, then a
fuzzy pass returning the first unused bullet containing the
first-20-character fragment of `before`, else `NotFound`. -/
def locateSpec (before : String) (work : List WorkItem) (used : List String) :
    Option (Nat × Nat) :=
  let needle := jsTrim before
  let exactPass := (locsOf work).find?
    (fun p => freeAt used p && (jsTrim (bulletAt work p) == needle))
  let fragment := String.mk (before.data.take (min 20 before.data.length))
  exactPass.or ((locsOf work).find?
    (fun p => freeAt used p && jsIncludes (bulletAt work p) fragment))

/-- The path resolver as §4.1 of the spec words it: a numeric segment
selects the element at that position of an ordered sequence, a string
segment selects a named field; any other combination fails (`NotFound`). -/
def resolveSpec : Json → List JsKey → Option Json
  | doc, [] => some doc
  | .arr xs, .num n :: rest =>
      if n < 0 then none
      else match xs[n.toNat]? with
        | none => none
        | some sub => resolveSpec sub rest
  | .obj l, .str s :: rest =>
      match getField l s with
      | none => none
      | some sub => resolveSpec sub rest
  | _, _ => none

/-- Is this value a leaf (non-container)? -/
def isLeaf : Json → Bool
  | .arr _ => false
  | .obj _ => false
  | _ => true

/-- A well-formed engine address segment: numeric segments are
non-negative, field segments are non-empty names that do not look numeric
and contain no `'/'` (so the slash-encoded path decodes back to the same
key). -/
def wfKey : JsKey → Bool
  | .num n => decide (0 ≤ n)
  | .str s =>
      (parseDecInt s.data).isNone && decide ('/' ∉ s.data) &&
        decide (s ≠ "")

/-- A well-formed engine address (spec §3 / §6). -/
def wfAddr (ks : List JsKey) : Bool := ks.all wfKey

/-- Slash-encode an address (the wire form of §6). -/
def encPath (ks : List JsKey) : String :=
  ks.foldl (fun acc k => acc ++ "/" ++ keyStr k) ""

/-- Outcome classification of one operation on a document, mirroring
`writeAtK`: does it replace a leaf, skip silently, or throw? -/
inductive OpOutcome where
  | writes
  | benign
  | throws
deriving DecidableEq, Repr

/-- Classify the final `if (cursor && lastKey in cursor)` step. -/
def classifyFinal (doc : Json) (k : JsKey) : OpOutcome :=
  match doc with
  | .null => .benign
  | .bool false => .benign
  | .bool true => .throws
  | .num n => if n = 0 then .benign else .throws
  | .str s => if s = "" then .benign else .throws
  | .obj l => if (getField l (keyStr k)).isSome then .writes else .benign
  | .arr xs =>
      match k with
      | .num n => if 0 ≤ n ∧ n.toNat < xs.length then .writes else .benign
      | .str _ => .benign

/-- Classify a whole traversal, mirroring `writeAtK`. -/
def classifyK : Json → List JsKey → OpOutcome
  | doc, [] => classifyFinal doc (JsKey.str "undefined")
  | doc, [k] => classifyFinal doc k
  | doc, k :: k2 :: rest =>
      match jsAccess doc k with
      | .error _ => .throws
      | .ok none => .benign
      | .ok (some sub) => classifyK sub (k2 :: rest)

/-- Classify one patch operation on a document. -/
def classifyOp (doc : Json) (o : JsonPatchOp) : OpOutcome :=
  if o.op = "replace" then classifyK doc (kpath o.path) else .benign

end PatchEngine

namespace PatchEngine

/-! ## Decimal-representation lemmas

`mkKey` and `mkPath` are built with `Nat.repr`; the distinctness claims
(C3, C7) and the path/mapping alignment (C10) need that these encodings are
injective, which follows from `Nat.repr` producing pure digit strings and
being left-invertible by `parseDecNat`. -/

theorem string_data_inj {a b : String} (h : a.data = b.data) : a = b := by
  cases a; cases b; exact congrArg String.mk h

theorem digitChar_isDigit {m : Nat} (h : m < 10) :
    (Nat.digitChar m).isDigit = true := by
  interval_cases m <;> decide

theorem digitChar_val {m : Nat} (h : m < 10) :
    (Nat.digitChar m).toNat - 48 = m := by
  interval_cases m <;> decide

theorem toDigitsCore_all_digit (fuel : Nat) :
    ∀ (n : Nat) (ds : List Char), (∀ c ∈ ds, c.isDigit = true) →
      ∀ c ∈ Nat.toDigitsCore 10 fuel n ds, c.isDigit = true := by
  induction fuel with
  | zero => intro n ds hds c hc; exact hds c hc
  | succ fuel ih =>
    intro n ds hds c hc
    simp only [Nat.toDigitsCore] at hc
    by_cases h : n / 10 = 0
    · rw [if_pos h] at hc
      rcases List.mem_cons.mp hc with rfl | hmem
      · exact digitChar_isDigit (Nat.mod_lt _ (by decide))
      · exact hds _ hmem
    · rw [if_neg h] at hc
      refine ih (n / 10) (Nat.digitChar (n % 10) :: ds) ?_ c hc
      intro c2 hc2
      rcases List.mem_cons.mp hc2 with rfl | hmem
      · exact digitChar_isDigit (Nat.mod_lt _ (by decide))
      · exact hds _ hmem

theorem nat_repr_all_digit (n : Nat) :
    ∀ c ∈ (Nat.repr n).data, c.isDigit = true := by
  have hd : (Nat.repr n).data = Nat.toDigits 10 n := rfl
  rw [hd]
  exact toDigitsCore_all_digit (n + 1) n [] (by intro c hc; cases hc)

theorem toDigitsCore_append (n : Nat) :
    ∀ (fuel : Nat) (ds : List Char), n < fuel →
      Nat.toDigitsCore 10 fuel n ds = Nat.toDigits 10 n ++ ds := by
  induction n using Nat.strong_induction_on with
  | _ n ih =>
    intro fuel ds h
    cases fuel with
    | zero => omega
    | succ fuel =>
      simp only [Nat.toDigitsCore, Nat.toDigits]
      by_cases h0 : n / 10 = 0
      · simp only [if_pos h0]
        rfl
      · simp only [if_neg h0]
        rw [ih (n / 10) (by omega) fuel (Nat.digitChar (n % 10) :: ds)
            (by omega),
          ih (n / 10) (by omega) n [Nat.digitChar (n % 10)] (by omega),
          List.append_assoc]
        rfl

theorem digitsVal_toDigits (n : Nat) : digitsVal (Nat.toDigits 10 n) = n := by
  induction n using Nat.strong_induction_on with
  | _ n ih =>
    simp only [Nat.toDigits, Nat.toDigitsCore]
    by_cases h0 : n / 10 = 0
    · rw [if_pos h0]
      have hn : n < 10 := by omega
      have hmod : n % 10 = n := Nat.mod_eq_of_lt hn
      simp only [digitsVal, List.foldl, hmod]
      have := digitChar_val hn
      omega
    · rw [if_neg h0]
      have hlt2 : n / 10 < n := by omega
      rw [toDigitsCore_append (n / 10) n [Nat.digitChar (n % 10)] (by omega)]
      have hih := ih (n / 10) hlt2
      simp only [digitsVal, List.foldl_append, List.foldl] at hih ⊢
      rw [hih]
      have := digitChar_val (Nat.mod_lt n (y := 10) (by decide))
      omega

theorem nat_repr_ne_nil (n : Nat) : (Nat.repr n).data ≠ [] := by
  have hd : (Nat.repr n).data = Nat.toDigits 10 n := rfl
  rw [hd]
  simp only [Nat.toDigits, Nat.toDigitsCore]
  by_cases h0 : n / 10 = 0
  · rw [if_pos h0]; simp
  · rw [if_neg h0, toDigitsCore_append (n / 10) n _ (by omega)]
    simp

theorem parseDecNat_repr (n : Nat) : parseDecNat (Nat.repr n).data = some n := by
  have hd : (Nat.repr n).data = Nat.toDigits 10 n := rfl
  rw [parseDecNat, if_pos ?_]
  · rw [hd, digitsVal_toDigits]
  · constructor
    · exact nat_repr_ne_nil n
    · rw [List.all_eq_true]
      exact nat_repr_all_digit n

theorem nat_repr_inj {a b : Nat} (h : Nat.repr a = Nat.repr b) : a = b := by
  have := congrArg (fun s => parseDecNat s.data) h
  simp only [parseDecNat_repr] at this
  exact Option.some.inj this

theorem nat_repr_no_sep {n : Nat} {c : Char} (hc : c ∈ (Nat.repr n).data) :
    c ≠ ':' ∧ c ≠ '/' := by
  have := nat_repr_all_digit n c hc
  constructor <;> rintro rfl <;> simp [Char.isDigit] at this

/-- Unique decomposition of a list at a separator character that occurs in
neither left part. -/
theorem append_sep_inj {sep : Char} :
    ∀ {as cs bs ds : List Char}, sep ∉ as → sep ∉ cs →
      as ++ sep :: bs = cs ++ sep :: ds → as = cs ∧ bs = ds := by
  intro as
  induction as with
  | nil =>
    intro cs bs ds _ hc h
    cases cs with
    | nil => simpa using h
    | cons c cs2 =>
      simp only [List.nil_append, List.cons_append, List.cons.injEq] at h
      exact absurd (h.1 ▸ List.mem_cons_self c cs2) (h.1 ▸ hc)
  | cons a as2 ih =>
    intro cs bs ds ha hc h
    cases cs with
    | nil =>
      simp only [List.cons_append, List.nil_append, List.cons.injEq] at h
      exact absurd (h.1 ▸ List.mem_cons_self a as2) (by rw [h.1] at ha; exact ha)
    | cons c cs2 =>
      simp only [List.cons_append, List.cons.injEq] at h
      obtain ⟨rfl, h2⟩ := h
      have := ih (fun hm => ha (List.mem_cons_of_mem _ hm))
        (fun hm => hc (List.mem_cons_of_mem _ hm)) h2
      exact ⟨by rw [this.1], this.2⟩

theorem mkKey_inj {w1 i1 w2 i2 : Nat} (h : mkKey w1 i1 = mkKey w2 i2) :
    w1 = w2 ∧ i1 = i2 := by
  have hdata := congrArg String.data h
  simp only [mkKey, String.data_append] at hdata
  simp only [List.append_assoc, List.singleton_append] at hdata
  have := @append_sep_inj ':' _ _ _ _
    (fun hm => (nat_repr_no_sep hm).1 rfl)
    (fun hm => (nat_repr_no_sep hm).1 rfl) hdata
  exact ⟨nat_repr_inj (string_data_inj this.1),
    nat_repr_inj (string_data_inj this.2)⟩

theorem mkPath_inj {w1 i1 w2 i2 : Nat} (h : mkPath w1 i1 = mkPath w2 i2) :
    w1 = w2 ∧ i1 = i2 := by
  have hdata := congrArg String.data h
  simp only [mkPath, String.data_append] at hdata
  simp only [List.append_assoc, List.cons_append, List.nil_append,
    List.cons.injEq, true_and] at hdata
  -- now: (repr w1).data ++ '/' :: (rest₁) = (repr w2).data ++ '/' :: (rest₂)
  have hsplit := @append_sep_inj '/' _ _ _ _
    (fun hm => (nat_repr_no_sep hm).2 rfl)
    (fun hm => (nat_repr_no_sep hm).2 rfl) hdata
  refine ⟨nat_repr_inj (string_data_inj hsplit.1), ?_⟩
  have htail := hsplit.2
  simp only [List.cons.injEq, true_and] at htail
  exact nat_repr_inj (string_data_inj htail)

end PatchEngine

namespace PatchEngine

/-! ## The matcher loops compute the canonical-order scan of the spec -/

theorem find?_congr {α : Type _} {p q : α → Bool} :
    ∀ {l : List α}, (∀ a ∈ l, p a = q a) → l.find? p = l.find? q := by
  intro l
  induction l with
  | nil => intro _; rfl
  | cons a t ih =>
    intro h
    have ha := h a (List.mem_cons_self a t)
    by_cases hp : p a
    · rw [List.find?_cons_of_pos _ hp, List.find?_cons_of_pos _ (ha ▸ hp)]
    · rw [List.find?_cons_of_neg _ hp, List.find?_cons_of_neg _ (ha ▸ hp),
        ih (fun b hb => h b (List.mem_cons_of_mem _ hb))]

theorem rowFind_eq (test : String → Bool) (used : List String) (w : Nat) :
    ∀ (hs hs0 : List String),
      rowFind test used w hs0.length hs =
        ((List.range hs.length).map (fun j => (w, hs0.length + j))).find?
          (fun p => freeAt used p && test ((hs0 ++ hs).getD p.2 "")) := by
  intro hs
  induction hs with
  | nil => intro hs0; rfl
  | cons h t ih =>
    intro hs0
    simp only [List.length_cons]
    rw [List.range_succ_eq_map, List.map_cons, List.map_map]
    simp only [rowFind]
    have h0 : (hs0 ++ h :: t).getD hs0.length "" = h := by
      rw [List.getD_eq_getElem?_getD,
        List.getElem?_append_right (Nat.le_refl _), Nat.sub_self]
      simp
    have hfun : ((fun j => ((w : Nat), hs0.length + j)) ∘ Nat.succ) =
        (fun j => (w, (hs0 ++ [h]).length + j)) := by
      funext j
      simp only [Function.comp_apply, List.length_append, List.length_cons,
        List.length_nil, Prod.mk.injEq, true_and]
      omega
    have htail2 : rowFind test used w (hs0.length + 1) t =
        ((List.range t.length).map
            (fun j => (w, (hs0 ++ [h]).length + j))).find?
          (fun p => freeAt used p && test ((hs0 ++ h :: t).getD p.2 "")) := by
      rw [show hs0.length + 1 = (hs0 ++ [h]).length by simp, ih (hs0 ++ [h])]
      congr 1
      funext p
      rw [show (hs0 ++ [h]) ++ t = hs0 ++ h :: t by simp]
    by_cases hu : mkKey w hs0.length ∈ used
    · rw [if_pos hu,
        List.find?_cons_of_neg _ (show ¬ _ = true by
          dsimp only
          simp [freeAt, hu]),
        hfun, htail2]
    · rw [if_neg hu]
      by_cases ht : test h
      · rw [if_pos ht,
          List.find?_cons_of_pos _ (show _ = true by
            dsimp only
            rw [Nat.add_zero, h0]
            simp [freeAt, hu, ht])]
        simp
      · rw [if_neg ht,
          List.find?_cons_of_neg _ (show ¬ _ = true by
            dsimp only
            rw [Nat.add_zero, h0]
            simp [freeAt, hu, ht]),
          hfun, htail2]

theorem workScan_eq (test : String → Bool) (used : List String) :
    ∀ (items work : List WorkItem) (w0 : Nat), work.drop w0 = items →
      workScan test used w0 items =
        (locsAux items w0).find?
          (fun p => freeAt used p && test (bulletAt work p)) := by
  intro items
  induction items with
  | nil => intro work w0 _; rfl
  | cons item rest ih =>
    intro work w0 hdrop
    have hwork : work[w0]? = some item := by
      have := congrArg (fun l => l[0]?) hdrop
      simpa [List.getElem?_drop] using this
    have hrow : rowOf work w0 = bulletsOf item := by
      simp [rowOf, hwork]
    have hfirst : rowFind test used w0 0 (bulletsOf item) =
        ((List.range (bulletsOf item).length).map (fun i => (w0, i))).find?
          (fun p => freeAt used p && test (bulletAt work p)) := by
      have hr := rowFind_eq test used w0 (bulletsOf item) []
      simp only [List.length_nil, List.nil_append] at hr
      rw [hr]
      have hm : ((List.range (bulletsOf item).length).map
            (fun j => ((w0 : Nat), 0 + j))) =
          ((List.range (bulletsOf item).length).map (fun i => (w0, i))) := by
        apply List.map_congr_left
        intro j _
        simp
      rw [hm]
      apply find?_congr
      intro p hp
      obtain ⟨j, hjmem, rfl⟩ := List.mem_map.mp hp
      simp only [bulletAt, hrow]
      rw [List.getD_eq_getElem?_getD]
    have hrest : work.drop (w0 + 1) = rest := by
      have : (work.drop w0).tail = rest := by rw [hdrop]; rfl
      rwa [List.tail_drop] at this
    simp only [workScan, locsAux, List.find?_append]
    rw [← hfirst, ih work (w0 + 1) hrest]
    cases hres : rowFind test used w0 0 (bulletsOf item) <;> simp

/-- Claim C2: the two nested loops of `locateBullet` implement exactly the
two-pass canonical-order scan described in §4.2 of the spec
(`locateSpec`): first unused bullet with equal trimmed text, else first
unused bullet containing the 20-character prefix fragment, else nothing. -/
theorem locateBullet_correct (before : String) (work : List WorkItem)
    (used : List String) :
    locateBullet before work used = locateSpec before work used := by
  have h1 := workScan_eq (fun h => jsTrim h == jsTrim before) used work work 0
    (by simp)
  have h2 := workScan_eq
    (fun h => jsIncludes h (String.mk (before.data.take (min 20 before.data.length))))
    used work work 0 (by simp)
  simp only [locateBullet, locateSpec, locsOf, h1, h2]

end PatchEngine

namespace PatchEngine

/-! ## Builder lemmas: the used set makes addresses distinct -/

theorem locateSpec_some {before : String} {work : List WorkItem}
    {used : List String} {p : Nat × Nat}
    (h : locateSpec before work used = some p) :
    p ∈ locsOf work ∧ mkKey p.1 p.2 ∉ used := by
  simp only [locateSpec] at h
  rcases Option.or_eq_some.mp h with hf | ⟨_, hf⟩ <;>
  · refine ⟨List.mem_of_find?_eq_some hf, ?_⟩
    have := List.find?_some hf
    simp only [freeAt, Bool.and_eq_true, Bool.not_eq_true',
      decide_eq_false_iff_not] at this
    exact this.1

theorem locateBullet_some {before : String} {work : List WorkItem}
    {used : List String} {p : Nat × Nat}
    (h : locateBullet before work used = some p) :
    p ∈ locsOf work ∧ mkKey p.1 p.2 ∉ used :=
  locateSpec_some (locateBullet_correct before work used ▸ h)

/-- Every mapping entry of `buildAux` carries a fresh key: the keys are
pairwise distinct and none was in the incoming used set. -/
theorem buildAux_keys (work : List WorkItem) :
    ∀ (rs : List Rewrite) (used : List String),
      ((buildAux work rs used).2.map
        (fun m : MapEntry => mkKey m.workIdx m.idx)).Nodup ∧
        ∀ m ∈ (buildAux work rs used).2, mkKey m.workIdx m.idx ∉ used := by
  intro rs
  induction rs with
  | nil => intro used; exact ⟨List.nodup_nil, by intro m hm; cases hm⟩
  | cons r rs ih =>
    intro used
    simp only [buildAux]
    cases hloc : locateBullet r.before work used with
    | none => exact ih used
    | some p =>
      obtain ⟨w, i⟩ := p
      have hfresh := (locateBullet_some hloc).2
      obtain ⟨hnodup, hnotin⟩ := ih (mkKey w i :: used)
      refine ⟨?_, ?_⟩
      · simp only [List.map_cons, List.nodup_cons]
        exact ⟨fun hmem => by
          obtain ⟨m, hm, hkey⟩ := List.mem_map.mp hmem
          exact hnotin m hm (hkey ▸ List.mem_cons_self _ _), hnodup⟩
      · intro m hm
        rcases List.mem_cons.mp hm with rfl | hm2
        · exact hfresh
        · exact fun hmem =>
            hnotin m hm2 (List.mem_cons_of_mem _ hmem)

/-- The patch side of `buildAux` is computed entry-for-entry from the
mapping side: a replace operation at the slash-encoded location with the
suggestion's replacement text. -/
theorem buildAux_patch_eq (work : List WorkItem) :
    ∀ (rs : List Rewrite) (used : List String),
      (buildAux work rs used).1 =
        (buildAux work rs used).2.map
          (fun m : MapEntry =>
            (⟨"replace", mkPath m.workIdx m.idx, m.after⟩ : JsonPatchOp)) := by
  intro rs
  induction rs with
  | nil => intro used; rfl
  | cons r rs ih =>
    intro used
    simp only [buildAux]
    cases hloc : locateBullet r.before work used with
    | none => exact ih used
    | some p =>
      obtain ⟨w, i⟩ := p
      simp only [List.map_cons]
      exact congrArg _ (ih (mkKey w i :: used))

/-- The mapping's `(before, after)` texts form a subsequence of the
suggestions' texts, in input order. -/
theorem buildAux_mapping_sublist (work : List WorkItem) :
    ∀ (rs : List Rewrite) (used : List String),
      List.Sublist
        ((buildAux work rs used).2.map (fun m : MapEntry => (m.before, m.after)))
        (rs.map (fun r : Rewrite => (r.before, r.after))) := by
  intro rs
  induction rs with
  | nil => intro used; simp [buildAux]
  | cons r rs ih =>
    intro used
    simp only [buildAux, List.map_cons]
    cases hloc : locateBullet r.before work used with
    | none => exact (ih used).cons _
    | some p =>
      obtain ⟨w, i⟩ := p
      simp only [List.map_cons]
      exact (ih (mkKey w i :: used)).cons₂ _

/-- The mapping locations of a build are pairwise distinct. -/
theorem build_pairs_nodup (rewrites : List Rewrite) (work : List WorkItem) :
    ((buildPatchFromRewrites rewrites work).2.map
      (fun m : MapEntry => (m.workIdx, m.idx))).Nodup := by
  have h := (buildAux_keys work rewrites []).1
  have h2 : (((buildPatchFromRewrites rewrites work).2.map
      (fun m : MapEntry => (m.workIdx, m.idx))).map
        (fun q : Nat × Nat => mkKey q.1 q.2)).Nodup := by
    rw [List.map_map]
    exact h
  exact List.Nodup.of_map _ h2

/-- The patch paths of a build are pairwise distinct. -/
theorem build_patch_paths_nodup (rewrites : List Rewrite)
    (work : List WorkItem) :
    ((buildPatchFromRewrites rewrites work).1.map
      (fun o : JsonPatchOp => o.path)).Nodup := by
  have hpe := buildAux_patch_eq work rewrites []
  have hpaths : (buildPatchFromRewrites rewrites work).1.map
        (fun o : JsonPatchOp => o.path) =
      ((buildPatchFromRewrites rewrites work).2.map
        (fun m : MapEntry => (m.workIdx, m.idx))).map
          (fun q : Nat × Nat => mkPath q.1 q.2) := by
    show (buildAux work rewrites []).1.map (fun o : JsonPatchOp => o.path) = _
    rw [hpe, List.map_map, List.map_map]
    rfl
  rw [hpaths]
  refine List.Nodup.map ?_ (build_pairs_nodup rewrites work)
  intro q1 q2 hq
  exact Prod.ext_iff.mpr (mkPath_inj hq)

end PatchEngine

namespace PatchEngine

/-- Claim C3: no two entries of the `fullPatch` (and of the `mapping`)
produced by `buildPatchFromRewrites` share an address — patch paths are
pairwise distinct and mapping locations are pairwise distinct, because every
consumed location enters the `used` set and is excluded from all later
lookups of the same build pass. -/
theorem build_no_shared_address (rewrites : List Rewrite)
    (work : List WorkItem) :
    ((buildPatchFromRewrites rewrites work).1.map
      (fun o : JsonPatchOp => o.path)).Nodup ∧
    ((buildPatchFromRewrites rewrites work).2.map
      (fun m : MapEntry => (m.workIdx, m.idx))).Nodup :=
  ⟨build_patch_paths_nodup rewrites work, build_pairs_nodup rewrites work⟩

/-- Claim C10: the two outputs of `buildPatchFromRewrites` are aligned
index by index — they have equal length, every patch entry is the replace
operation at the slash-encoded path `/work/<workIdx>/highlights/<idx>` of
the same-index mapping entry with its `after` value, and the mapping's
`(before, after)` texts are exactly the located suggestions' texts in input
order (a subsequence of the suggestion list). -/
theorem build_outputs_aligned (rewrites : List Rewrite)
    (work : List WorkItem) :
    (buildPatchFromRewrites rewrites work).1.length =
        (buildPatchFromRewrites rewrites work).2.length ∧
    (buildPatchFromRewrites rewrites work).1 =
      (buildPatchFromRewrites rewrites work).2.map
        (fun m : MapEntry =>
          (⟨"replace", mkPath m.workIdx m.idx, m.after⟩ : JsonPatchOp)) ∧
    List.Sublist
      ((buildPatchFromRewrites rewrites work).2.map
        (fun m : MapEntry => (m.before, m.after)))
      (rewrites.map (fun r : Rewrite => (r.before, r.after))) := by
  refine ⟨?_, buildAux_patch_eq work rewrites [],
    buildAux_mapping_sublist work rewrites []⟩
  rw [show (buildPatchFromRewrites rewrites work).1 =
      (buildPatchFromRewrites rewrites work).2.map
        (fun m : MapEntry =>
          (⟨"replace", mkPath m.workIdx m.idx, m.after⟩ : JsonPatchOp)) from
    buildAux_patch_eq work rewrites []]
  exact List.length_map _ _

/-! ## The patch store invariant -/

theorem storeInv_init : storeInv initStore :=
  ⟨List.nodup_nil, by intro o ho; cases ho⟩

theorem storeInv_step (fullPatch : List JsonPatchOp)
    (hfp : (fullPatch.map (fun o : JsonPatchOp => o.path)).Nodup)
    (s : StoreState) (hs : storeInv s) (a : StoreAction) :
    storeInv (stepStore fullPatch s a) := by
  obtain ⟨hnodup, hdisj⟩ := hs
  cases a with
  | accept path value =>
    constructor
    · simp only [stepStore, List.map_append, List.map_cons, List.map_nil]
      rw [List.nodup_append]
      refine ⟨?_, List.nodup_singleton _, ?_⟩
      · exact hnodup.sublist ((List.filter_sublist _).map _)
      · intro x hx
        obtain ⟨o, ho, rfl⟩ := List.mem_map.mp hx
        have := List.of_mem_filter ho
        simp only [decide_eq_true_eq] at this
        simp [this]
    · intro o ho
      simp only [stepStore, List.mem_append, List.mem_cons] at ho
      rcases ho with ho | ho
      · have hmem := List.mem_of_mem_filter ho
        have hne := List.of_mem_filter ho
        simp only [decide_eq_true_eq] at hne
        have hnd := hdisj o hmem
        simp only [stepStore]
        by_cases hpd : path ∈ s.dismissed
        · rw [if_pos hpd]
          intro hc
          exact hnd (List.mem_of_mem_filter hc)
        · rw [if_neg hpd]
          exact hnd
      · rcases ho with rfl | ho
        · simp only [stepStore]
          by_cases hpd : path ∈ s.dismissed
          · rw [if_pos hpd]
            intro hc
            have := List.of_mem_filter hc
            simp at this
          · rw [if_neg hpd]
            exact hpd
        · cases ho
  | reject path =>
    constructor
    · exact hnodup.sublist ((List.filter_sublist _).map _)
    · intro o ho
      have hmem := List.mem_of_mem_filter ho
      have hne := List.of_mem_filter ho
      simp only [decide_eq_true_eq] at hne
      have hnd := hdisj o hmem
      simp only [stepStore]
      by_cases hpd : path ∈ s.dismissed
      · rw [if_pos hpd]
        exact hnd
      · rw [if_neg hpd]
        intro hc
        rcases List.mem_append.mp hc with hc | hc
        · exact hnd hc
        · rcases List.mem_singleton.mp hc with rfl
          exact hne rfl
  | acceptAll =>
    exact ⟨hfp, by intro o _ hc; cases hc⟩
  | reset =>
    exact ⟨List.nodup_nil, by intro o ho; cases ho⟩

theorem storeInv_run (fullPatch : List JsonPatchOp)
    (hfp : (fullPatch.map (fun o : JsonPatchOp => o.path)).Nodup) :
    ∀ (acts : List StoreAction) (s : StoreState), storeInv s →
      storeInv (acts.foldl (stepStore fullPatch) s) := by
  intro acts
  induction acts with
  | nil => intro s hs; exact hs
  | cons a rest ih =>
    intro s hs
    exact ih _ (storeInv_step fullPatch hfp s hs a)

/-- Claim C4: starting from the empty store, after any sequence of
`accept` / `reject` / `acceptAll` / `reset` transitions (with `acceptAll`
installing the panel's built `fullPatch`), the state invariant holds: no
address key is simultaneously pending and dismissed, and `pending` holds at
most one operation per address key (a later accept at the same address
replaces the earlier one). -/
theorem store_invariant_holds (rewrites : List Rewrite)
    (work : List WorkItem) (acts : List StoreAction) :
    storeInv (runStore (buildPatchFromRewrites rewrites work).1 acts) :=
  storeInv_run _ (build_patch_paths_nodup rewrites work) acts initStore
    storeInv_init

end PatchEngine

namespace PatchEngine

/-! ## C9 — empty `before`: the fuzzy fragment is empty -/

theorem containsChars_nil (l : List Char) : containsChars [] l = true := by
  cases l <;> rfl

/-- Claim C9, counterexample: with `before = ""` and an unused
whitespace-only bullet present, the exact pass (whose needle is the empty
trimmed string) fires first, so the SECOND bullet is returned although the
first unused bullet in canonical order is `(0, 0)`. -/
theorem locate_empty_counterexample :
    (locsOf [⟨some ["hello", " "]⟩]).head? = some (0, 0) ∧
      locateBullet "" [⟨some ["hello", " "]⟩] [] = some (0, 1) ∧
      locateBullet "" [⟨some ["hello", " "]⟩] [] ≠ some (0, 0) :=
  ⟨rfl, rfl, by intro h; rw [show locateBullet "" [⟨some ["hello", " "]⟩] [] =
    some (0, 1) from rfl] at h; simp at h⟩

/-- Claim C9 as amended: with the empty string as `before`, `locateBullet`
never returns `NotFound` as long as some bullet is unused — the fuzzy
fragment of `""` is empty and is contained in every bullet, so the fuzzy
pass always finds the first unused bullet; however, when an unused
whitespace-only bullet exists the exact pass (needle `""`) already returns
the first such bullet, which need not be the first unused bullet. -/
theorem locate_empty_never_notFound (work : List WorkItem)
    (used : List String)
    (h : ∃ p ∈ locsOf work, mkKey p.1 p.2 ∉ used) :
    (locateBullet "" work used).isSome = true := by
  obtain ⟨p, hp, hfree⟩ := h
  rw [locateBullet_correct]
  simp only [locateSpec]
  have hor : ∀ (a b : Option (Nat × Nat)), b.isSome = true →
      (a.or b).isSome = true := by
    intro a b hb
    cases a <;> simp [Option.or, hb]
  apply hor
  rw [List.find?_isSome]
  refine ⟨p, hp, ?_⟩
  simp only [freeAt, Bool.and_eq_true, Bool.not_eq_true',
    decide_eq_false_iff_not]
  refine ⟨hfree, ?_⟩
  show containsChars _ _ = true
  exact containsChars_nil _

/-- Witness for the amended C9 at a concrete input. -/
theorem locate_empty_never_notFound_witness :
    (locateBullet "" [⟨some ["hello"]⟩] []).isSome = true :=
  locate_empty_never_notFound [⟨some ["hello"]⟩] []
    ⟨(0, 0), by decide, by decide⟩

/-! ## C8 — earlier suggestion wins a contested location -/

theorem find?_eq_head_filter {α : Type _} (p : α → Bool) :
    ∀ l : List α, l.find? p = (l.filter p).head? := by
  intro l
  induction l with
  | nil => rfl
  | cons a t ih =>
    by_cases hp : p a
    · rw [List.find?_cons_of_pos _ hp, List.filter_cons_of_pos hp]
      rfl
    · rw [List.find?_cons_of_neg _ hp, List.filter_cons_of_neg hp, ih]

theorem locsAux_lower :
    ∀ (items : List WorkItem) (w0 : Nat), ∀ p ∈ locsAux items w0, w0 ≤ p.1 := by
  intro items
  induction items with
  | nil => intro w0 p hp; cases hp
  | cons item rest ih =>
    intro w0 p hp
    rcases List.mem_append.mp hp with hp | hp
    · obtain ⟨i, _, rfl⟩ := List.mem_map.mp hp
      exact Nat.le_refl _
    · exact Nat.le_of_succ_le (ih (w0 + 1) p hp)

theorem locsAux_nodup :
    ∀ (items : List WorkItem) (w0 : Nat), (locsAux items w0).Nodup := by
  intro items
  induction items with
  | nil => intro w0; exact List.nodup_nil
  | cons item rest ih =>
    intro w0
    simp only [locsAux]
    rw [List.nodup_append]
    refine ⟨?_, ih (w0 + 1), ?_⟩
    · refine List.Nodup.map ?_ (List.nodup_range _)
      intro i1 i2 h
      simpa using h
    · intro p hp hp2
      obtain ⟨i, _, rfl⟩ := List.mem_map.mp hp
      have := locsAux_lower rest (w0 + 1) _ hp2
      simp at this

theorem locsOf_nodup (work : List WorkItem) : (locsOf work).Nodup :=
  locsAux_nodup work 0

/-- If the head of the unused exact-pass candidates is `q`, the matcher
returns `q`. -/
theorem locateBullet_exact_eq {b : String} {work : List WorkItem}
    {used : List String} {q : Nat × Nat}
    (hp : ((locsOf work).filter
        (fun p => freeAt used p &&
          (jsTrim (bulletAt work p) == jsTrim b))).head? = some q) :
    locateBullet b work used = some q := by
  rw [locateBullet_correct]
  simp only [locateSpec]
  rw [find?_eq_head_filter, hp]
  rfl

end PatchEngine

namespace PatchEngine

/-- Claim C8: when two suggestions carry the same `before` text and exactly
two bullets (in canonical scan order `p1` then `p2`) match it, the earlier
suggestion is assigned the earlier-scanned bullet and the later suggestion
the other: the `used` set accumulated across the build iteration makes the
earlier suggestion win the contested location. -/
theorem contested_location_earlier_wins (work : List WorkItem)
    (b a1 a2 : String) (p1 p2 : Nat × Nat)
    (hfilter : (locsOf work).filter
        (fun p => jsTrim (bulletAt work p) == jsTrim b) = [p1, p2]) :
    (buildPatchFromRewrites [⟨b, a1⟩, ⟨b, a2⟩] work).2 =
      [⟨p1.1, p1.2, b, a1⟩, ⟨p2.1, p2.2, b, a2⟩] := by
  obtain ⟨w1, i1⟩ := p1
  obtain ⟨w2, i2⟩ := p2
  have hnd : ((locsOf work).filter
      (fun p => jsTrim (bulletAt work p) == jsTrim b)).Nodup :=
    (locsOf_nodup work).filter _
  rw [hfilter] at hnd
  have hne : ((w1, i1) : Nat × Nat) ≠ (w2, i2) := by
    simp only [List.nodup_cons, List.mem_singleton] at hnd
    exact hnd.1
  have h1 : locateBullet b work [] = some (w1, i1) := by
    apply locateBullet_exact_eq
    have hcong : (locsOf work).filter
        (fun p => freeAt [] p && (jsTrim (bulletAt work p) == jsTrim b)) =
        (locsOf work).filter
          (fun p => jsTrim (bulletAt work p) == jsTrim b) :=
      List.filter_congr (by intro p _; simp [freeAt])
    rw [hcong, hfilter]
    rfl
  have h2 : locateBullet b work [mkKey w1 i1] = some (w2, i2) := by
    apply locateBullet_exact_eq
    have hcomm : (locsOf work).filter
        (fun p => freeAt [mkKey w1 i1] p &&
          (jsTrim (bulletAt work p) == jsTrim b)) =
        ((locsOf work).filter
          (fun p => jsTrim (bulletAt work p) == jsTrim b)).filter
            (freeAt [mkKey w1 i1]) := by
      rw [List.filter_filter]
    rw [hcomm, hfilter,
      List.filter_cons_of_neg (by simp [freeAt]),
      List.filter_cons_of_pos (show freeAt [mkKey w1 i1] (w2, i2) = true by
        simp only [freeAt, List.mem_singleton, Bool.not_eq_true',
          decide_eq_false_iff_not]
        intro hk
        exact hne (Prod.ext_iff.mpr
          ⟨(mkKey_inj hk).1.symm, (mkKey_inj hk).2.symm⟩))]
    rfl
  show (buildAux work [⟨b, a1⟩, ⟨b, a2⟩] []).2 = _
  simp only [buildAux, h1, h2]

/-- Witness for C8 at a concrete document with a duplicated bullet. -/
theorem contested_location_earlier_wins_witness :
    (locsOf [⟨some ["dup", "x", "dup"]⟩]).filter
        (fun p => jsTrim (bulletAt [⟨some ["dup", "x", "dup"]⟩] p) ==
          jsTrim "dup") = [(0, 0), (0, 2)] ∧
      (buildPatchFromRewrites [⟨"dup", "A"⟩, ⟨"dup", "B"⟩]
          [⟨some ["dup", "x", "dup"]⟩]).2 =
        [⟨0, 0, "dup", "A"⟩, ⟨0, 2, "dup", "B"⟩] :=
  ⟨rfl, contested_location_earlier_wins [⟨some ["dup", "x", "dup"]⟩]
    "dup" "A" "B" (0, 0) (0, 2) rfl⟩

end PatchEngine

namespace PatchEngine

/-! ## Container surgery lemmas -/

theorem list_set_self {α : Type _} {l : List α} {i : Nat} {a : α}
    (h : l[i]? = some a) : l.set i a = l := by
  have hlt : i < l.length := by
    by_contra hc
    rw [List.getElem?_eq_none (by omega)] at h
    cases h
  have ha : l[i] = a := by
    have := List.getElem?_eq_getElem hlt
    rw [h] at this
    exact (Option.some.inj this).symm
  subst ha
  apply List.ext_getElem?
  intro n
  by_cases hn : n = i
  · subst hn
    simp [List.getElem?_set_self hlt, List.getElem?_eq_getElem hlt]
  · simp [List.getElem?_set_ne (fun hc => hn hc.symm)]

theorem getField_setField_self :
    ∀ {l : List (String × Json)} {name : String} {v : Json},
      getField l name = some v → setField l name v = l := by
  intro l
  induction l with
  | nil => intro name v h; cases h
  | cons kv rest ih =>
    intro name v h
    obtain ⟨k0, v0⟩ := kv
    simp only [getField] at h
    simp only [setField]
    by_cases hk : k0 = name
    · rw [if_pos hk] at h
      rw [if_pos hk, Option.some.inj h]
    · rw [if_neg hk] at h
      rw [if_neg hk, ih h]

theorem getField_setField_eq :
    ∀ {l : List (String × Json)} {name : String} {w : Json},
      (getField l name).isSome = true →
        getField (setField l name w) name = some w := by
  intro l
  induction l with
  | nil => intro name w h; simp [getField] at h
  | cons kv rest ih =>
    intro name w h
    obtain ⟨k0, v0⟩ := kv
    simp only [getField] at h
    simp only [setField]
    by_cases hk : k0 = name
    · rw [if_pos hk]
      simp [getField, hk]
    · rw [if_neg hk] at h
      rw [if_neg hk]
      simp only [getField, if_neg hk]
      exact ih h

theorem getField_setField_ne :
    ∀ {l : List (String × Json)} {name name2 : String} {w : Json},
      name ≠ name2 →
        getField (setField l name w) name2 = getField l name2 := by
  intro l
  induction l with
  | nil => intro name name2 w _; rfl
  | cons kv rest ih =>
    intro name name2 w hne
    obtain ⟨k0, v0⟩ := kv
    simp only [setField]
    by_cases hk : k0 = name
    · rw [if_pos hk]
      simp only [getField]
      rw [if_neg (hk ▸ hne ∘ Eq.symm ∘ Eq.symm), if_neg (by rw [hk]; exact fun hc => hne hc)]
    · rw [if_neg hk]
      simp only [getField]
      by_cases hk2 : k0 = name2
      · rw [if_pos hk2, if_pos hk2]
      · rw [if_neg hk2, if_neg hk2, ih hne]

theorem getField_setField_isSome :
    ∀ {l : List (String × Json)} {name name2 : String} {w : Json},
      (getField (setField l name w) name2).isSome =
        (getField l name2).isSome := by
  intro l name name2 w
  by_cases hne : name = name2
  · subst hne
    by_cases hs : (getField l name).isSome = true
    · rw [getField_setField_eq hs, hs]
      rfl
    · have hnone : getField l name = none := by
        cases hg : getField l name
        · rfl
        · rw [hg] at hs; simp at hs
      have : setField l name w = l := by
        clear hs
        induction l with
        | nil => rfl
        | cons kv rest ih =>
          obtain ⟨k0, v0⟩ := kv
          simp only [getField] at hnone
          by_cases hk : k0 = name
          · rw [if_pos hk] at hnone; cases hnone
          · rw [if_neg hk] at hnone
            simp only [setField, if_neg hk]
            rw [ih hnone]
      rw [this]
  · rw [getField_setField_ne hne]

/-- Reading back the slot a successful access came from after writing the
same value leaves the document unchanged. -/
theorem jsSet_access_self {doc : Json} {k : JsKey} {sub : Json}
    (h : jsAccess doc k = .ok (some sub)) : jsSet doc k sub = doc := by
  cases doc with
  | null => cases h
  | bool b => simp [jsAccess] at h
  | num n => simp [jsAccess] at h
  | str s => rfl
  | obj l =>
      simp only [jsAccess, Except.ok.injEq] at h
      simp only [jsSet]
      rw [getField_setField_self h]
  | arr xs =>
      cases k with
      | num n =>
          simp only [jsAccess, Except.ok.injEq] at h
          by_cases hn : n < 0
          · rw [if_pos hn] at h; cases h
          · rw [if_neg hn] at h
            simp only [jsSet, if_neg hn]
            rw [list_set_self h]
      | str s => simp [jsAccess] at h

end PatchEngine

namespace PatchEngine

/-! ## C1 — which resolution failures are silent and which throw -/

theorem finalAssign_benign {doc : Json} {k : JsKey} (v : String)
    (h : classifyFinal doc k = .benign) : finalAssign doc k v = .ok doc := by
  cases doc with
  | null => rfl
  | bool b =>
      cases b with
      | false => rfl
      | true => exact OpOutcome.noConfusion h
  | num n =>
      by_cases hn : n = 0
      · simp [finalAssign, hn]
      · simp [classifyFinal, hn] at h
  | str s =>
      by_cases hs : s = ""
      · simp [finalAssign, hs]
      · simp [classifyFinal, hs] at h
  | obj l =>
      simp only [classifyFinal] at h
      by_cases hg : (getField l (keyStr k)).isSome = true
      · rw [if_pos hg] at h; exact OpOutcome.noConfusion h
      · simp only [finalAssign]
        rw [if_neg hg]
  | arr xs =>
      cases k with
      | num n =>
          simp only [classifyFinal] at h
          by_cases hr : 0 ≤ n ∧ n.toNat < xs.length
          · rw [if_pos hr] at h; exact OpOutcome.noConfusion h
          · simp only [finalAssign, if_neg hr]
      | str s => rfl

theorem finalAssign_throws {doc : Json} {k : JsKey} (v : String)
    (h : classifyFinal doc k = .throws) :
    finalAssign doc k v =
      .error "TypeError: cannot use in operator on a primitive" := by
  cases doc with
  | null => exact OpOutcome.noConfusion h
  | bool b =>
      cases b with
      | false => exact OpOutcome.noConfusion h
      | true => rfl
  | num n =>
      by_cases hn : n = 0
      · simp [classifyFinal, hn] at h
      · simp [finalAssign, hn]
  | str s =>
      by_cases hs : s = ""
      · simp [classifyFinal, hs] at h
      · simp [finalAssign, hs]
  | obj l =>
      simp only [classifyFinal] at h
      by_cases hg : (getField l (keyStr k)).isSome = true
      · rw [if_pos hg] at h; exact OpOutcome.noConfusion h
      · rw [if_neg hg] at h; exact OpOutcome.noConfusion h
  | arr xs =>
      cases k with
      | num n =>
          simp only [classifyFinal] at h
          by_cases hr : 0 ≤ n ∧ n.toNat < xs.length
          · rw [if_pos hr] at h; exact OpOutcome.noConfusion h
          · rw [if_neg hr] at h; exact OpOutcome.noConfusion h
      | str s => exact OpOutcome.noConfusion h


/-! Unfolding equations for `writeAtK` / `classifyK` at a known access
result, used throughout the remaining proofs. -/

theorem writeAtK_cons_error {doc : Json} {k k2 : JsKey} {rest : List JsKey}
    {v e : String} (hacc : jsAccess doc k = .error e) :
    writeAtK doc (k :: k2 :: rest) v = .error e := by
  simp only [writeAtK, hacc]

theorem writeAtK_cons_none {doc : Json} {k k2 : JsKey} {rest : List JsKey}
    {v : String} (hacc : jsAccess doc k = .ok none) :
    writeAtK doc (k :: k2 :: rest) v = .ok doc := by
  simp only [writeAtK, hacc]

theorem writeAtK_cons_some_ok {doc sub sub2 : Json} {k k2 : JsKey}
    {rest : List JsKey} {v : String}
    (hacc : jsAccess doc k = .ok (some sub))
    (hw : writeAtK sub (k2 :: rest) v = .ok sub2) :
    writeAtK doc (k :: k2 :: rest) v = .ok (jsSet doc k sub2) := by
  simp only [writeAtK, hacc, hw]

theorem writeAtK_cons_some_error {doc sub : Json} {k k2 : JsKey}
    {rest : List JsKey} {v e : String}
    (hacc : jsAccess doc k = .ok (some sub))
    (hw : writeAtK sub (k2 :: rest) v = .error e) :
    writeAtK doc (k :: k2 :: rest) v = .error e := by
  simp only [writeAtK, hacc, hw]

theorem writeAtK_cons_cases {doc sub : Json} {k k2 : JsKey}
    {rest : List JsKey} {v : String}
    (hacc : jsAccess doc k = .ok (some sub)) :
    (∃ e, writeAtK sub (k2 :: rest) v = .error e ∧
        writeAtK doc (k :: k2 :: rest) v = .error e) ∨
    (∃ sub2, writeAtK sub (k2 :: rest) v = .ok sub2 ∧
        writeAtK doc (k :: k2 :: rest) v = .ok (jsSet doc k sub2)) := by
  cases hw : writeAtK sub (k2 :: rest) v with
  | error e => exact Or.inl ⟨e, rfl, writeAtK_cons_some_error hacc hw⟩
  | ok sub2 => exact Or.inr ⟨sub2, rfl, writeAtK_cons_some_ok hacc hw⟩

theorem classifyK_cons_error {doc : Json} {k k2 : JsKey} {rest : List JsKey}
    {e : String} (hacc : jsAccess doc k = .error e) :
    classifyK doc (k :: k2 :: rest) = .throws := by
  simp only [classifyK, hacc]

theorem classifyK_cons_none {doc : Json} {k k2 : JsKey} {rest : List JsKey}
    (hacc : jsAccess doc k = .ok none) :
    classifyK doc (k :: k2 :: rest) = .benign := by
  simp only [classifyK, hacc]

theorem classifyK_cons_some {doc sub : Json} {k k2 : JsKey}
    {rest : List JsKey} (hacc : jsAccess doc k = .ok (some sub)) :
    classifyK doc (k :: k2 :: rest) = classifyK sub (k2 :: rest) := by
  simp only [classifyK, hacc]

theorem classifyK_benign (v : String) :
    ∀ (ks : List JsKey) (doc : Json),
      classifyK doc ks = .benign → writeAtK doc ks v = .ok doc := by
  intro ks
  induction ks with
  | nil => intro doc h; exact finalAssign_benign v h
  | cons k rest ih =>
    intro doc h
    cases rest with
    | nil => exact finalAssign_benign v h
    | cons k2 rest2 =>
      cases hacc : jsAccess doc k with
      | error e =>
        rw [classifyK_cons_error hacc] at h
        exact OpOutcome.noConfusion h
      | ok osub =>
        cases osub with
        | none => exact writeAtK_cons_none hacc
        | some sub =>
          rw [classifyK_cons_some hacc] at h
          rw [writeAtK_cons_some_ok hacc (ih sub h),
            jsSet_access_self hacc]

theorem classifyK_throws (v : String) :
    ∀ (ks : List JsKey) (doc : Json),
      classifyK doc ks = .throws → ∃ e, writeAtK doc ks v = .error e := by
  intro ks
  induction ks with
  | nil =>
    intro doc h
    exact ⟨"TypeError: cannot use in operator on a primitive",
      finalAssign_throws v h⟩
  | cons k rest ih =>
    intro doc h
    cases rest with
    | nil =>
      exact ⟨"TypeError: cannot use in operator on a primitive",
        finalAssign_throws v h⟩
    | cons k2 rest2 =>
      cases hacc : jsAccess doc k with
      | error e => exact ⟨e, writeAtK_cons_error hacc⟩
      | ok osub =>
        cases osub with
        | none =>
          rw [classifyK_cons_none hacc] at h
          exact OpOutcome.noConfusion h
        | some sub =>
          rw [classifyK_cons_some hacc] at h
          obtain ⟨e, he⟩ := ih sub h
          exact ⟨e, writeAtK_cons_some_error hacc he⟩

theorem applyOp_benign {E : Json} {o : JsonPatchOp}
    (h : classifyOp E o = .benign) : applyOp E o = .ok E := by
  unfold classifyOp at h
  unfold applyOp
  by_cases hop : o.op = "replace"
  · rw [if_pos hop] at h ⊢
    exact classifyK_benign o.value _ E h
  · rw [if_neg hop]

theorem applyOp_throws {E : Json} {o : JsonPatchOp}
    (h : classifyOp E o = .throws) : ∃ e, applyOp E o = .error e := by
  unfold classifyOp at h
  unfold applyOp
  by_cases hop : o.op = "replace"
  · rw [if_pos hop] at h ⊢
    exact classifyK_throws o.value _ E h
  · rw [if_neg hop] at h
    exact OpOutcome.noConfusion h

theorem applyPatchLocal_append (B : List JsonPatchOp) :
    ∀ (A : List JsonPatchOp) (D : Json),
      applyPatchLocal D (A ++ B) =
        (applyPatchLocal D A).bind (fun E => applyPatchLocal E B) := by
  intro A
  induction A with
  | nil => intro D; rfl
  | cons o A ih =>
    intro D
    rw [List.cons_append]
    simp only [applyPatchLocal]
    cases happ : applyOp D o with
    | error e => rfl
    | ok d2 => exact ih d2

/-- Claim C1, counterexample: an operation whose traversal reaches a string
leaf as the final parent is not skipped silently — the JavaScript `in`
operator throws a `TypeError` on a primitive, aborting the whole
application, so the sibling operation (which succeeds on its own, second
conjunct) is lost as well. -/
theorem apply_error_counterexample :
    applyPatchLocal
        (.obj [("work", .arr [.obj [("highlights",
          .arr [.str "hi", .str "bye"])]])])
        [⟨"replace", "/work/0/highlights/0/x", "v"⟩,
          ⟨"replace", "/work/0/highlights/1", "ok"⟩] =
      .error "TypeError: cannot use in operator on a primitive" ∧
    applyPatchLocal
        (.obj [("work", .arr [.obj [("highlights",
          .arr [.str "hi", .str "bye"])]])])
        [⟨"replace", "/work/0/highlights/1", "ok"⟩] =
      .ok (.obj [("work", .arr [.obj [("highlights",
        .arr [.str "hi", .str "ok"])]])]) :=
  ⟨rfl, rfl⟩

/-- Claim C1 as amended: an operation whose address resolution fails
benignly — an `undefined` intermediate, a missing field or out-of-range
index at the last segment, or a falsy final cursor — is a silent no-op for
that single operation and the rest of the patch applies as if the operation
were absent; but an operation whose traversal reads a property of `null` or
reaches a truthy primitive as the final parent throws a `TypeError` that
aborts the whole application. -/
theorem apply_skips_benign_aborts_throwing (D E : Json)
    (P1 P2 : List JsonPatchOp) (o : JsonPatchOp)
    (h1 : applyPatchLocal D P1 = .ok E) :
    (classifyOp E o = .benign →
      applyPatchLocal D (P1 ++ o :: P2) = applyPatchLocal D (P1 ++ P2)) ∧
    (classifyOp E o = .throws →
      ∃ e, applyPatchLocal D (P1 ++ o :: P2) = .error e) := by
  have hsplit1 : applyPatchLocal D (P1 ++ o :: P2) =
      applyPatchLocal E (o :: P2) := by
    rw [applyPatchLocal_append (o :: P2) P1 D, h1]
    rfl
  have hsplit2 : applyPatchLocal D (P1 ++ P2) = applyPatchLocal E P2 := by
    rw [applyPatchLocal_append P2 P1 D, h1]
    rfl
  constructor
  · intro hb
    rw [hsplit1, hsplit2]
    simp only [applyPatchLocal]
    rw [applyOp_benign hb]
  · intro ht
    obtain ⟨e, he⟩ := applyOp_throws ht
    rw [hsplit1]
    simp only [applyPatchLocal]
    rw [he]
    exact ⟨e, rfl⟩

/-- Witness for the amended C1 at concrete inputs: a benign missing-field
operation is dropped without affecting the rest, and a throwing operation
aborts. -/
theorem apply_skips_benign_aborts_throwing_witness :
    applyPatchLocal (.obj [("a", .str "x")]) [] =
        .ok (.obj [("a", .str "x")]) ∧
    classifyOp (.obj [("a", .str "x")]) ⟨"replace", "/b", "v"⟩ = .benign ∧
    applyPatchLocal (.obj [("a", .str "x")])
        ([] ++ ⟨"replace", "/b", "v"⟩ :: [⟨"replace", "/a", "w"⟩]) =
      applyPatchLocal (.obj [("a", .str "x")])
        ([] ++ [⟨"replace", "/a", "w"⟩]) ∧
    classifyOp (.obj [("a", .str "x")]) ⟨"replace", "/a/q", "v"⟩ = .throws ∧
    (∃ e, applyPatchLocal (.obj [("a", .str "x")])
        ([] ++ ⟨"replace", "/a/q", "v"⟩ :: [⟨"replace", "/a", "w"⟩]) =
      .error e) :=
  ⟨rfl, rfl,
    (apply_skips_benign_aborts_throwing _ _ [] [⟨"replace", "/a", "w"⟩]
      ⟨"replace", "/b", "v"⟩ rfl).1 rfl,
    rfl,
    (apply_skips_benign_aborts_throwing _ _ [] [⟨"replace", "/a", "w"⟩]
      ⟨"replace", "/a/q", "v"⟩ rfl).2 rfl⟩

end PatchEngine

namespace PatchEngine

/-! ## Decoding the slash-encoded wire paths (§6) -/

theorem splitSlash_ne_nil : ∀ cs : List Char, splitSlash cs ≠ [] := by
  intro cs
  cases cs with
  | nil => simp [splitSlash]
  | cons c cs =>
      simp only [splitSlash]
      by_cases h : c = '/' <;> simp [h]

theorem headI_cons_tail {α : Type _} [Inhabited α] {l : List α}
    (h : l ≠ []) : l.headI :: l.tail = l := by
  cases l with
  | nil => exact absurd rfl h
  | cons a t => rfl

theorem splitSlash_append_seg :
    ∀ (seg cs : List Char), '/' ∉ seg →
      splitSlash (seg ++ cs) =
        (seg ++ (splitSlash cs).headI) :: (splitSlash cs).tail := by
  intro seg
  induction seg with
  | nil =>
    intro cs _
    simp only [List.nil_append]
    exact (headI_cons_tail (splitSlash_ne_nil cs)).symm
  | cons c seg ih =>
    intro cs hni
    have hc : c ≠ '/' := fun hcc => hni (hcc ▸ List.mem_cons_self c seg)
    rw [List.cons_append]
    simp only [splitSlash, if_neg hc]
    rw [ih cs (fun hm => hni (List.mem_cons_of_mem _ hm))]
    simp

theorem splitSlash_encode :
    ∀ (segs : List (List Char)), (∀ seg ∈ segs, '/' ∉ seg) →
      splitSlash (segs.flatMap (fun s => '/' :: s)) = [] :: segs := by
  intro segs
  induction segs with
  | nil => intro _; rfl
  | cons s rest ih =>
    intro h
    rw [List.flatMap_cons, List.cons_append]
    simp only [splitSlash, if_pos rfl]
    rw [splitSlash_append_seg s _ (h s (List.mem_cons_self s rest)),
      ih (fun seg hm => h seg (List.mem_cons_of_mem _ hm))]
    simp

theorem string_mk_data (s : String) : String.mk s.data = s := by
  cases s
  rfl

theorem encPath_data :
    ∀ (ks : List JsKey) (acc : String),
      (ks.foldl (fun a k => a ++ "/" ++ keyStr k) acc).data =
        acc.data ++ ks.flatMap (fun k => '/' :: (keyStr k).data) := by
  intro ks
  induction ks with
  | nil => intro acc; simp
  | cons k ks ih =>
    intro acc
    rw [List.foldl_cons, ih, List.flatMap_cons]
    simp

theorem int_repr_nonneg {n : Int} (h : 0 ≤ n) : Int.repr n = Nat.repr n.toNat := by
  obtain ⟨m, rfl⟩ := Int.eq_ofNat_of_zero_le h
  rfl

theorem parseDecInt_digits {cs : List Char} (hne : cs ≠ [])
    (hdig : ∀ c ∈ cs, c.isDigit = true) :
    parseDecInt cs = (parseDecNat cs).map (fun n => (n : Int)) := by
  cases cs with
  | nil => exact absurd rfl hne
  | cons c rest =>
      have hc : c ≠ '-' := by
        have := hdig c (List.mem_cons_self c rest)
        intro hcc
        rw [hcc] at this
        simp [Char.isDigit] at this
      simp [parseDecInt, hc]

theorem parseDecInt_repr_nat (m : Nat) :
    parseDecInt (Nat.repr m).data = some (m : Int) := by
  rw [parseDecInt_digits (nat_repr_ne_nil m) (nat_repr_all_digit m),
    parseDecNat_repr]
  rfl

theorem keyStr_wf_no_slash {k : JsKey} (hw : wfKey k = true) :
    '/' ∉ (keyStr k).data := by
  cases k with
  | num n =>
      simp only [wfKey, decide_eq_true_eq] at hw
      rw [keyStr, int_repr_nonneg hw]
      intro hm
      exact (nat_repr_no_sep hm).2 rfl
  | str s =>
      simp only [wfKey, Bool.and_eq_true, decide_eq_true_eq] at hw
      exact hw.1.2

theorem keyStr_wf_ne_empty {k : JsKey} (hw : wfKey k = true) :
    keyStr k ≠ "" := by
  cases k with
  | num n =>
      simp only [wfKey, decide_eq_true_eq] at hw
      rw [keyStr, int_repr_nonneg hw]
      intro hc
      exact nat_repr_ne_nil n.toNat (by rw [hc])
  | str s =>
      simp only [wfKey, Bool.and_eq_true, decide_eq_true_eq] at hw
      exact hw.2

theorem segKey_keyStr {k : JsKey} (hw : wfKey k = true) :
    segKey (keyStr k) = k := by
  cases k with
  | num n =>
      simp only [wfKey, decide_eq_true_eq] at hw
      obtain ⟨m, rfl⟩ := Int.eq_ofNat_of_zero_le hw
      show segKey (Nat.repr m) = JsKey.num (Int.ofNat m)
      rw [segKey]
      have : parseDecInt (Nat.repr m).data = some (m : Int) :=
        parseDecInt_repr_nat m
      rw [this]
      rfl
  | str s =>
      simp only [wfKey, Bool.and_eq_true, Option.isNone_iff_eq_none] at hw
      simp only [segKey, keyStr]
      rw [hw.1.1]

/-- A well-formed address survives the slash encode / decode round trip
through `path.split("/").filter(Boolean)` and the numeric-segment test. -/
theorem kpath_encPath {ks : List JsKey} (hw : wfAddr ks = true) :
    kpath (encPath ks) = ks := by
  have hall : ∀ k ∈ ks, wfKey k = true := by
    intro k hk
    exact List.all_eq_true.mp hw k hk
  have hdata : (encPath ks).data =
      (ks.map (fun k => (keyStr k).data)).flatMap (fun s => '/' :: s) := by
    rw [encPath, encPath_data]
    simp [List.flatMap_map]
  have hsplit : splitSlash (encPath ks).data =
      [] :: ks.map (fun k => (keyStr k).data) := by
    rw [hdata]
    apply splitSlash_encode
    intro seg hseg
    obtain ⟨k, hk, rfl⟩ := List.mem_map.mp hseg
    exact keyStr_wf_no_slash (hall k hk)
  rw [kpath, pathParts, hsplit]
  simp only [List.map_cons, List.map_map]
  have hmk : (String.mk ∘ fun k : JsKey => (keyStr k).data) =
      (fun k : JsKey => keyStr k) := by
    funext k
    exact string_mk_data (keyStr k)
  rw [hmk]
  rw [List.filter_cons_of_neg (by simp)]
  have hfilter : (ks.map (fun k => keyStr k)).filter (fun seg => seg ≠ "") =
      ks.map (fun k => keyStr k) := by
    apply List.filter_eq_self.mpr
    intro a ha
    obtain ⟨k, hk, rfl⟩ := List.mem_map.mp ha
    simp [keyStr_wf_ne_empty (hall k hk)]
  rw [hfilter, List.map_map]
  have : (segKey ∘ fun k : JsKey => keyStr k) = fun k : JsKey => segKey (keyStr k) := rfl
  rw [this]
  conv_rhs => rw [show ks = ks.map id from (List.map_id ks).symm]
  apply List.map_congr_left
  intro k hk
  exact segKey_keyStr (hall k hk)

end PatchEngine

namespace PatchEngine

/-! ## C5 — replacing a resolvable leaf changes exactly that leaf -/

theorem resolveSpec_nil (doc : Json) : resolveSpec doc [] = some doc := by
  cases doc <;> rfl

theorem resolveSpec_arr_num_neg {xs : List Json} {n : Int}
    {rest : List JsKey} (hn : n < 0) :
    resolveSpec (.arr xs) (.num n :: rest) = none := by
  simp only [resolveSpec, if_pos hn]

theorem resolveSpec_arr_num_none {xs : List Json} {n : Int}
    {rest : List JsKey} (hn : ¬n < 0) (hget : xs[n.toNat]? = none) :
    resolveSpec (.arr xs) (.num n :: rest) = none := by
  simp only [resolveSpec, if_neg hn, hget]

theorem resolveSpec_arr_num {xs : List Json} {n : Int} {sub : Json}
    {rest : List JsKey} (hn : ¬n < 0) (hget : xs[n.toNat]? = some sub) :
    resolveSpec (.arr xs) (.num n :: rest) = resolveSpec sub rest := by
  simp only [resolveSpec, if_neg hn, hget]

theorem resolveSpec_obj_str_none {l : List (String × Json)} {s : String}
    {rest : List JsKey} (hget : getField l s = none) :
    resolveSpec (.obj l) (.str s :: rest) = none := by
  simp only [resolveSpec, hget]

theorem resolveSpec_obj_str {l : List (String × Json)} {s : String}
    {sub : Json} {rest : List JsKey} (hget : getField l s = some sub) :
    resolveSpec (.obj l) (.str s :: rest) = resolveSpec sub rest := by
  simp only [resolveSpec, hget]

theorem resolveSpec_leaf {w : Json} (h : isLeaf w = true) :
    ∀ {ks : List JsKey}, ks ≠ [] → resolveSpec w ks = none := by
  intro ks hk
  cases ks with
  | nil => exact absurd rfl hk
  | cons k rest =>
    cases w with
    | arr xs => simp [isLeaf] at h
    | obj l => simp [isLeaf] at h
    | null => rfl
    | bool b => rfl
    | num n => rfl
    | str s => rfl

theorem getElem?_some_lt {α : Type _} {l : List α} {i : Nat} {a : α}
    (h : l[i]? = some a) : i < l.length := by
  by_contra hc
  rw [List.getElem?_eq_none (by omega)] at h
  cases h

/-- Writing at a resolvable leaf address: the write succeeds, the address
now resolves to the new string, and every other leaf address resolves as
before.  (Immutability of the input is automatic: `writeAtK` returns a new
value.) -/
theorem resolve_writeAtK (v : String) :
    ∀ (A : List JsKey) (D leafVal : Json),
      A ≠ [] →
      resolveSpec D A = some leafVal →
      isLeaf leafVal = true →
      ∃ D2, writeAtK D A v = .ok D2 ∧
        resolveSpec D2 A = some (.str v) ∧
        ∀ (B : List JsKey) (w2 : Json), resolveSpec D B = some w2 →
          isLeaf w2 = true → B ≠ A → resolveSpec D2 B = resolveSpec D B := by
  intro A
  induction A with
  | nil => intro D leafVal hne; exact absurd rfl hne
  | cons k rest ih =>
    intro D leafVal _ hres hleaf
    cases D with
    | null => exact Option.noConfusion hres
    | bool b => exact Option.noConfusion hres
    | num n => exact Option.noConfusion hres
    | str s => exact Option.noConfusion hres
    | arr xs =>
      cases k with
      | str s => exact Option.noConfusion hres
      | num n =>
        by_cases hn : n < 0
        · rw [resolveSpec_arr_num_neg hn] at hres
          exact Option.noConfusion hres
        · cases hget : xs[n.toNat]? with
          | none =>
            rw [resolveSpec_arr_num_none hn hget] at hres
            exact Option.noConfusion hres
          | some sub =>
            rw [resolveSpec_arr_num hn hget] at hres
            have hlt : n.toNat < xs.length := getElem?_some_lt hget
            have hset : (xs.set n.toNat (Json.str v))[n.toNat]? =
                some (Json.str v) := List.getElem?_set_self hlt
            cases rest with
            | nil =>
              rw [resolveSpec_nil] at hres
              obtain rfl : sub = leafVal := Option.some.inj hres
              refine ⟨.arr (xs.set n.toNat (.str v)), ?_, ?_, ?_⟩
              · show finalAssign (.arr xs) (.num n) v = _
                simp only [finalAssign]
                rw [if_pos ⟨Int.not_lt.mp hn, hlt⟩]
              · rw [resolveSpec_arr_num hn hset, resolveSpec_nil]
              · intro B w2 hB hw2leaf hBne
                cases B with
                | nil =>
                  rw [resolveSpec_nil] at hB
                  obtain rfl := Option.some.inj hB
                  simp [isLeaf] at hw2leaf
                | cons kb Brest =>
                  cases kb with
                  | str s2 => exact Option.noConfusion hB
                  | num m =>
                    by_cases hm : m < 0
                    · rw [resolveSpec_arr_num_neg hm] at hB
                      exact Option.noConfusion hB
                    · by_cases hmn : m.toNat = n.toNat
                      · have hmeq : m = n := by omega
                        subst hmeq
                        cases Brest with
                        | nil => exact absurd rfl hBne
                        | cons kb2 Brest2 =>
                          rw [resolveSpec_arr_num hm hget,
                            resolveSpec_leaf hleaf (by simp)] at hB
                          exact Option.noConfusion hB
                      · have hset2 : (xs.set n.toNat (Json.str v))[m.toNat]? =
                            xs[m.toNat]? :=
                          List.getElem?_set_ne (fun hc => hmn hc.symm)
                        cases hget2 : xs[m.toNat]? with
                        | none =>
                          rw [resolveSpec_arr_num_none hm (hset2.trans hget2),
                            resolveSpec_arr_num_none hm hget2]
                        | some sub2 =>
                          rw [resolveSpec_arr_num hm (hset2.trans hget2),
                            resolveSpec_arr_num hm hget2]
            | cons k2 rest2 =>
              have hacc : jsAccess (.arr xs) (.num n) = .ok (some sub) := by
                simp only [jsAccess]
                rw [if_neg hn, hget]
              obtain ⟨D2s, hw2, hres2, hframe2⟩ :=
                ih sub leafVal (by simp) hres hleaf
              have hsetD : (xs.set n.toNat D2s)[n.toNat]? = some D2s :=
                List.getElem?_set_self hlt
              refine ⟨.arr (xs.set n.toNat D2s), ?_, ?_, ?_⟩
              · rw [writeAtK_cons_some_ok hacc hw2]
                simp only [jsSet, if_neg hn]
              · rw [resolveSpec_arr_num hn hsetD]
                exact hres2
              · intro B w2 hB hw2leaf hBne
                cases B with
                | nil =>
                  rw [resolveSpec_nil] at hB
                  obtain rfl := Option.some.inj hB
                  simp [isLeaf] at hw2leaf
                | cons kb Brest =>
                  cases kb with
                  | str s2 => exact Option.noConfusion hB
                  | num m =>
                    by_cases hm : m < 0
                    · rw [resolveSpec_arr_num_neg hm] at hB
                      exact Option.noConfusion hB
                    · by_cases hmn : m.toNat = n.toNat
                      · have hmeq : m = n := by omega
                        subst hmeq
                        rw [resolveSpec_arr_num hm hget] at hB
                        rw [resolveSpec_arr_num hm hsetD,
                          resolveSpec_arr_num hm hget]
                        exact hframe2 Brest w2 hB hw2leaf
                          (fun hc => hBne (by rw [hc]))
                      · have hset2 : (xs.set n.toNat D2s)[m.toNat]? =
                            xs[m.toNat]? :=
                          List.getElem?_set_ne (fun hc => hmn hc.symm)
                        cases hget2 : xs[m.toNat]? with
                        | none =>
                          rw [resolveSpec_arr_num_none hm (hset2.trans hget2),
                            resolveSpec_arr_num_none hm hget2]
                        | some sub2 =>
                          rw [resolveSpec_arr_num hm (hset2.trans hget2),
                            resolveSpec_arr_num hm hget2]
    | obj l =>
      cases k with
      | num n => exact Option.noConfusion hres
      | str s =>
        cases hget : getField l s with
        | none =>
          rw [resolveSpec_obj_str_none hget] at hres
          exact Option.noConfusion hres
        | some sub =>
          rw [resolveSpec_obj_str hget] at hres
          have hsome : (getField l s).isSome = true := by rw [hget]; rfl
          cases rest with
          | nil =>
            rw [resolveSpec_nil] at hres
            obtain rfl : sub = leafVal := Option.some.inj hres
            have hsetg : getField (setField l s (Json.str v)) s =
                some (Json.str v) := getField_setField_eq hsome
            refine ⟨.obj (setField l s (.str v)), ?_, ?_, ?_⟩
            · show finalAssign (.obj l) (.str s) v = _
              simp only [finalAssign, keyStr]
              rw [if_pos hsome]
            · rw [resolveSpec_obj_str hsetg, resolveSpec_nil]
            · intro B w2 hB hw2leaf hBne
              cases B with
              | nil =>
                rw [resolveSpec_nil] at hB
                obtain rfl := Option.some.inj hB
                simp [isLeaf] at hw2leaf
              | cons kb Brest =>
                cases kb with
                | num m => exact Option.noConfusion hB
                | str s2 =>
                  by_cases hs2 : s2 = s
                  · subst hs2
                    cases Brest with
                    | nil => exact absurd rfl hBne
                    | cons kb2 Brest2 =>
                      rw [resolveSpec_obj_str hget,
                        resolveSpec_leaf hleaf (by simp)] at hB
                      exact Option.noConfusion hB
                  · have hne2 : getField (setField l s (Json.str v)) s2 =
                        getField l s2 :=
                      getField_setField_ne (fun hc => hs2 hc.symm)
                    cases hget2 : getField l s2 with
                    | none =>
                      rw [resolveSpec_obj_str_none (hne2.trans hget2),
                        resolveSpec_obj_str_none hget2]
                    | some sub2 =>
                      rw [resolveSpec_obj_str (hne2.trans hget2),
                        resolveSpec_obj_str hget2]
          | cons k2 rest2 =>
            have hacc : jsAccess (.obj l) (.str s) = .ok (some sub) := by
              simp only [jsAccess, keyStr]
              rw [hget]
            obtain ⟨D2s, hw2, hres2, hframe2⟩ :=
              ih sub leafVal (by simp) hres hleaf
            have hsetg : getField (setField l s D2s) s = some D2s :=
              getField_setField_eq hsome
            refine ⟨.obj (setField l s D2s), ?_, ?_, ?_⟩
            · rw [writeAtK_cons_some_ok hacc hw2]
              simp only [jsSet, keyStr]
            · rw [resolveSpec_obj_str hsetg]
              exact hres2
            · intro B w2 hB hw2leaf hBne
              cases B with
              | nil =>
                rw [resolveSpec_nil] at hB
                obtain rfl := Option.some.inj hB
                simp [isLeaf] at hw2leaf
              | cons kb Brest =>
                cases kb with
                | num m => exact Option.noConfusion hB
                | str s2 =>
                  by_cases hs2 : s2 = s
                  · subst hs2
                    rw [resolveSpec_obj_str hget] at hB
                    rw [resolveSpec_obj_str hsetg,
                      resolveSpec_obj_str hget]
                    exact hframe2 Brest w2 hB hw2leaf
                      (fun hc => hBne (by rw [hc]))
                  · have hne2 : getField (setField l s D2s) s2 =
                        getField l s2 :=
                      getField_setField_ne (fun hc => hs2 hc.symm)
                    cases hget2 : getField l s2 with
                    | none =>
                      rw [resolveSpec_obj_str_none (hne2.trans hget2),
                        resolveSpec_obj_str_none hget2]
                    | some sub2 =>
                      rw [resolveSpec_obj_str (hne2.trans hget2),
                        resolveSpec_obj_str hget2]

end PatchEngine

namespace PatchEngine

/-- Claim C5: for a document `D`, a well-formed address `A` that resolves
in `D` to a leaf, and a value `v`, applying the single replace operation at
the slash-encoded path of `A` succeeds, the value at `A` in the result is
`v`, and every other leaf of `D` is unchanged.  The input document is never
mutated — `applyPatchLocal` returns a fresh value in this pure embedding,
mirroring the `JSON.parse(JSON.stringify(..))` clone in the source. -/
theorem replace_at_address (D leafVal : Json) (A : List JsKey) (v : String)
    (hwf : wfAddr A = true) (hne : A ≠ [])
    (hres : resolveSpec D A = some leafVal) (hleaf : isLeaf leafVal = true) :
    ∃ D2, applyPatchLocal D [⟨"replace", encPath A, v⟩] = .ok D2 ∧
      resolveSpec D2 A = some (.str v) ∧
      ∀ (B : List JsKey) (w2 : Json), resolveSpec D B = some w2 →
        isLeaf w2 = true → B ≠ A → resolveSpec D2 B = resolveSpec D B := by
  obtain ⟨D2, hw2, hr2, hf2⟩ := resolve_writeAtK v A D leafVal hne hres hleaf
  refine ⟨D2, ?_, hr2, hf2⟩
  have hop : applyOp D ⟨"replace", encPath A, v⟩ = .ok D2 := by
    unfold applyOp
    rw [if_pos rfl]
    show writeAtK D (kpath (encPath A)) v = _
    rw [kpath_encPath hwf]
    exact hw2
  simp only [applyPatchLocal]
  rw [hop]

/-- Witness for C5 at a concrete resume document. -/
theorem replace_at_address_witness :
    ∃ D2,
      applyPatchLocal
          (.obj [("work", .arr [.obj [("highlights",
            .arr [.str "old", .str "keep"])]])])
          [⟨"replace",
            encPath [.str "work", .num 0, .str "highlights", .num 0],
            "NEW"⟩] = .ok D2 ∧
      resolveSpec D2 [.str "work", .num 0, .str "highlights", .num 0] =
        some (.str "NEW") ∧
      ∀ (B : List JsKey) (w2 : Json),
        resolveSpec
            (.obj [("work", .arr [.obj [("highlights",
              .arr [.str "old", .str "keep"])]])]) B = some w2 →
          isLeaf w2 = true →
          B ≠ [.str "work", .num 0, .str "highlights", .num 0] →
          resolveSpec D2 B =
            resolveSpec
              (.obj [("work", .arr [.obj [("highlights",
                .arr [.str "old", .str "keep"])]])]) B :=
  replace_at_address
    (.obj [("work", .arr [.obj [("highlights",
      .arr [.str "old", .str "keep"])]])])
    (.str "old")
    [.str "work", .num 0, .str "highlights", .num 0] "NEW"
    (by decide) (by decide) rfl rfl

end PatchEngine

namespace PatchEngine

/-! ## C6 — idempotence: canonical keys and slot independence -/

/-- Keys produced by `segKey` are canonical: a string key never looks
numeric (otherwise `segKey` would have made it a number). -/
def canonKey : JsKey → Prop
  | .num _ => True
  | .str s => parseDecInt s.data = none

theorem canonKey_segKey (s : String) : canonKey (segKey s) := by
  unfold segKey
  cases h : parseDecInt s.data with
  | some n => trivial
  | none => exact h

theorem kpath_canon (p : String) : ∀ k ∈ kpath p, canonKey k := by
  intro k hk
  obtain ⟨s, _, rfl⟩ := List.mem_map.mp hk
  exact canonKey_segKey s

theorem parseDecInt_int_repr (n : Int) :
    parseDecInt (Int.repr n).data = some n := by
  cases n with
  | ofNat m => exact parseDecInt_repr_nat m
  | negSucc m =>
      show parseDecInt ("-" ++ Nat.repr (m + 1)).data = _
      rw [String.data_append]
      have hminus : ("-").data = ['-'] := rfl
      rw [hminus]
      show parseDecInt ('-' :: (Nat.repr (m + 1)).data) = _
      simp only [parseDecInt, if_pos rfl]
      rw [parseDecNat_repr]
      simp [Int.negSucc_eq]

theorem int_repr_inj {a b : Int} (h : Int.repr a = Int.repr b) : a = b := by
  have := congrArg (fun s => parseDecInt s.data) h
  simp only [parseDecInt_int_repr] at this
  exact Option.some.inj this

/-- Canonical distinct keys denote distinct property names. -/
theorem keyStr_inj_canon {k l : JsKey} (hk : canonKey k) (hl : canonKey l)
    (hne : k ≠ l) : keyStr k ≠ keyStr l := by
  cases k with
  | num n =>
      cases l with
      | num m =>
          intro hc
          exact hne (congrArg JsKey.num (int_repr_inj hc))
      | str s =>
          intro hc
          have hparse : parseDecInt s.data = some n := by
            rw [show s = Int.repr n from hc.symm]
            exact parseDecInt_int_repr n
          rw [hl] at hparse
          cases hparse
  | str s =>
      cases l with
      | num m =>
          intro hc
          have hparse : parseDecInt s.data = some m := by
            rw [show s = Int.repr m from hc]
            exact parseDecInt_int_repr m
          rw [hk] at hparse
          cases hparse
      | str t =>
          intro hc
          exact hne (congrArg JsKey.str hc)

/-- Boolean prefix test on key lists (used to state non-overlap of two
operations' paths). -/
def keyPreB : List JsKey → List JsKey → Bool
  | [], _ => true
  | _ :: _, [] => false
  | a :: as, b :: bs => a = b && keyPreB as bs

/-- No operation's segment-key list equals or is a proper prefix of
another's, in either direction. -/
def NonOverlapping (P : List JsonPatchOp) : Prop :=
  P.Pairwise (fun a b =>
    kpath a.path ≠ kpath b.path ∧
      keyPreB (kpath a.path) (kpath b.path) = false ∧
      keyPreB (kpath b.path) (kpath a.path) = false)

end PatchEngine

namespace PatchEngine

/-! ## C6 — more container surgery -/

def isContainer : Json → Bool
  | .arr _ => true
  | .obj _ => true
  | _ => false

theorem jsAccess_null (k : JsKey) :
    jsAccess .null k = .error "TypeError: cannot read properties of null" := by
  cases k <;> rfl

theorem jsAccess_bool (b : Bool) (k : JsKey) :
    jsAccess (.bool b) k = .ok none := by
  cases k <;> rfl

theorem jsAccess_num (n : Int) (k : JsKey) :
    jsAccess (.num n) k = .ok none := by
  cases k <;> rfl

theorem setField_setField :
    ∀ {l : List (String × Json)} {name : String} {w w2 : Json},
      setField (setField l name w) name w2 = setField l name w2 := by
  intro l
  induction l with
  | nil => intro name w w2; rfl
  | cons kv rest ih =>
    intro name w w2
    obtain ⟨k0, v0⟩ := kv
    simp only [setField]
    by_cases hk : k0 = name
    · simp [setField, hk]
    · simp only [if_neg hk, setField, if_neg hk]
      rw [ih]

theorem setField_comm :
    ∀ {l : List (String × Json)} {a b : String} {w u : Json}, a ≠ b →
      setField (setField l a w) b u = setField (setField l b u) a w := by
  intro l
  induction l with
  | nil => intro a b w u _; rfl
  | cons kv rest ih =>
    intro a b w u hab
    obtain ⟨k0, v0⟩ := kv
    by_cases ha : k0 = a
    · subst ha
      simp [setField, hab]
    · by_cases hb : k0 = b
      · subst hb
        simp [setField, ha]
      · simp [setField, ha, hb, ih hab]

/-- Writing twice at the same slot keeps only the second write. -/
theorem jsSet_jsSet (doc : Json) (k : JsKey) (w w2 : Json) :
    jsSet (jsSet doc k w) k w2 = jsSet doc k w2 := by
  cases doc with
  | obj l => simp only [jsSet]; rw [setField_setField]
  | arr xs =>
      cases k with
      | num n =>
          simp only [jsSet]
          by_cases hn : n < 0
          · simp [hn]
          · simp only [if_neg hn]
            rw [List.set_set]
      | str s => rfl
  | null => rfl
  | bool b => rfl
  | num n => rfl
  | str s => rfl

/-- Get-after-set at the same slot (containers). -/
theorem jsAccess_jsSet_self {doc sub : Json} {k : JsKey} (w : Json)
    (hc : isContainer doc = true)
    (h : jsAccess doc k = .ok (some sub)) :
    jsAccess (jsSet doc k w) k = .ok (some w) := by
  cases doc with
  | obj l =>
      simp only [jsAccess, Except.ok.injEq] at h
      simp only [jsSet, jsAccess, Except.ok.injEq]
      exact getField_setField_eq (by rw [h]; rfl)
  | arr xs =>
      cases k with
      | num n =>
          simp only [jsAccess] at h
          by_cases hn : n < 0
          · rw [if_pos hn] at h; cases h
          · rw [if_neg hn] at h
            have h2 := Except.ok.inj h
            have hlt := getElem?_some_lt h2
            simp only [jsSet, jsAccess, if_neg hn]
            rw [List.getElem?_set_self hlt]
      | str s => simp [jsAccess] at h
  | null => rw [jsAccess_null] at h; cases h
  | bool b => exact Bool.noConfusion hc
  | num n => exact Bool.noConfusion hc
  | str s => exact Bool.noConfusion hc

/-- Get-after-set at a different canonical slot. -/
theorem jsAccess_jsSet_ne {doc : Json} {k l : JsKey} (w : Json)
    (hk : canonKey k) (hl : canonKey l) (hne : k ≠ l) :
    jsAccess (jsSet doc l w) k = jsAccess doc k := by
  cases doc with
  | null => rfl
  | bool b => rfl
  | num n => rfl
  | str s => rfl
  | obj fs =>
      simp only [jsSet, jsAccess]
      rw [getField_setField_ne (keyStr_inj_canon hl hk (fun hc => hne hc.symm))]
  | arr xs =>
      cases l with
      | str s => cases k <;> rfl
      | num m =>
          cases k with
          | str s =>
              simp only [jsSet, jsAccess]
          | num n =>
              simp only [jsSet, jsAccess]
              by_cases hm : m < 0
              · rw [if_pos hm]
              · rw [if_neg hm]
                by_cases hn : n < 0
                · rw [if_pos hn, if_pos hn]
                · rw [if_neg hn, if_neg hn]
                  have hnm : m.toNat ≠ n.toNat := by
                    intro hc
                    apply hne
                    have : n = m := by omega
                    rw [this]
                  rw [List.getElem?_set_ne hnm]

/-- `writeAtK` never changes a non-container value. -/
theorem writeAtK_primitive :
    ∀ (ks : List JsKey) {doc d2 : Json} {v : String},
      isContainer doc = false → writeAtK doc ks v = .ok d2 → d2 = doc := by
  intro ks
  induction ks with
  | nil =>
    intro doc d2 v hc h
    cases doc with
    | null => exact (Except.ok.inj h).symm
    | bool b =>
        cases b with
        | false => exact (Except.ok.inj h).symm
        | true => cases h
    | num n =>
        by_cases hn : n = 0
        · subst hn; exact (Except.ok.inj h).symm
        · simp only [writeAtK, finalAssign, if_neg hn] at h; cases h
    | str s =>
        by_cases hs : s = ""
        · subst hs; exact (Except.ok.inj h).symm
        · simp only [writeAtK, finalAssign, if_neg hs] at h; cases h
    | arr xs => exact Bool.noConfusion hc
    | obj l => exact Bool.noConfusion hc
  | cons k rest ih =>
    intro doc d2 v hc h
    cases rest with
    | nil =>
      cases doc with
      | null => exact (Except.ok.inj h).symm
      | bool b =>
          cases b with
          | false => exact (Except.ok.inj h).symm
          | true => cases h
      | num n =>
          by_cases hn : n = 0
          · subst hn; exact (Except.ok.inj h).symm
          · simp only [writeAtK, finalAssign, if_neg hn] at h; cases h
      | str s =>
          by_cases hs : s = ""
          · subst hs; exact (Except.ok.inj h).symm
          · simp only [writeAtK, finalAssign, if_neg hs] at h; cases h
      | arr xs => exact Bool.noConfusion hc
      | obj l => exact Bool.noConfusion hc
    | cons k2 rest2 =>
      cases doc with
      | null => rw [writeAtK_cons_error (jsAccess_null k)] at h; cases h
      | bool b =>
          rw [writeAtK_cons_none (jsAccess_bool b k)] at h
          exact (Except.ok.inj h).symm
      | num n =>
          rw [writeAtK_cons_none (jsAccess_num n k)] at h
          exact (Except.ok.inj h).symm
      | str s =>
          cases hacc : jsAccess (Json.str s) k with
          | error e => rw [writeAtK_cons_error hacc] at h; cases h
          | ok osub =>
            cases osub with
            | none =>
                rw [writeAtK_cons_none hacc] at h
                exact (Except.ok.inj h).symm
            | some sub =>
                have hsubprim : isContainer sub = false := by
                  cases k with
                  | str s2 => simp [jsAccess] at hacc
                  | num n =>
                      simp only [jsAccess] at hacc
                      by_cases hn : n < 0
                      · rw [if_pos hn] at hacc; cases Except.ok.inj hacc
                      · rw [if_neg hn] at hacc
                        have := Except.ok.inj hacc
                        cases hg : s.data[n.toNat]? with
                        | none => rw [hg] at this; cases this
                        | some c =>
                            rw [hg] at this
                            obtain rfl := Option.some.inj this
                            rfl
                cases hw : writeAtK sub (k2 :: rest2) v with
                | error e => rw [writeAtK_cons_some_error hacc hw] at h; cases h
                | ok sub2 =>
                    rw [writeAtK_cons_some_ok hacc hw] at h
                    have := Except.ok.inj h
                    rw [← this]
                    rfl
      | arr xs => exact Bool.noConfusion hc
      | obj l => exact Bool.noConfusion hc

end PatchEngine

namespace PatchEngine

/-! ## C6 — replaying a write is a no-op -/

theorem jsAccess_prim_sub {doc sub : Json} {k : JsKey}
    (hc : isContainer doc = false) (h : jsAccess doc k = .ok (some sub)) :
    isContainer sub = false := by
  cases doc with
  | null => rw [jsAccess_null] at h; cases h
  | bool b => rw [jsAccess_bool] at h; cases Except.ok.inj h
  | num n => rw [jsAccess_num] at h; cases Except.ok.inj h
  | arr xs => exact Bool.noConfusion hc
  | obj l => exact Bool.noConfusion hc
  | str s =>
      cases k with
      | str s2 => cases Except.ok.inj h
      | num n =>
          simp only [jsAccess] at h
          by_cases hn : n < 0
          · rw [if_pos hn] at h; cases Except.ok.inj h
          · rw [if_neg hn] at h
            have h2 := Except.ok.inj h
            cases hg : s.data[n.toNat]? with
            | none => rw [hg] at h2; cases h2
            | some c =>
                rw [hg] at h2
                obtain rfl := Option.some.inj h2
                rfl

theorem finalAssign_replay {doc d2 : Json} {k : JsKey} {v : String}
    (h : finalAssign doc k v = .ok d2) : finalAssign d2 k v = .ok d2 := by
  cases doc with
  | null => obtain rfl : Json.null = d2 := Except.ok.inj h; exact h
  | bool b =>
      cases b with
      | false => obtain rfl : Json.bool false = d2 := Except.ok.inj h; exact h
      | true => exact Except.noConfusion h
  | num n =>
      by_cases hn : n = 0
      · subst hn
        obtain rfl : Json.num 0 = d2 := Except.ok.inj h
        exact h
      · simp only [finalAssign, if_neg hn] at h
        cases h
  | str s =>
      by_cases hs : s = ""
      · subst hs
        obtain rfl : Json.str "" = d2 := Except.ok.inj h
        exact h
      · simp only [finalAssign, if_neg hs] at h
        cases h
  | obj l =>
      simp only [finalAssign] at h
      by_cases hg : (getField l (keyStr k)).isSome = true
      · rw [if_pos hg] at h
        obtain rfl := Except.ok.inj h
        simp only [finalAssign]
        rw [if_pos (by rw [getField_setField_isSome]; exact hg),
          setField_setField]
      · rw [if_neg hg] at h
        obtain rfl := Except.ok.inj h
        simp only [finalAssign]
        rw [if_neg hg]
  | arr xs =>
      cases k with
      | str s =>
          obtain rfl : Json.arr xs = d2 := Except.ok.inj h
          exact h
      | num n =>
          simp only [finalAssign] at h
          by_cases hr : 0 ≤ n ∧ n.toNat < xs.length
          · rw [if_pos hr] at h
            obtain rfl := Except.ok.inj h
            simp only [finalAssign]
            rw [if_pos (by simpa using hr), List.set_set]
          · rw [if_neg hr] at h
            obtain rfl := Except.ok.inj h
            simp only [finalAssign]
            rw [if_neg hr]

theorem writeAtK_replay {v : String} :
    ∀ (ks : List JsKey) (doc d2 : Json),
      writeAtK doc ks v = .ok d2 → writeAtK d2 ks v = .ok d2 := by
  intro ks
  induction ks with
  | nil => intro doc d2 h; exact finalAssign_replay h
  | cons k rest ih =>
    intro doc d2 h
    cases rest with
    | nil => exact finalAssign_replay h
    | cons k2 rest2 =>
      cases hacc : jsAccess doc k with
      | error e => rw [writeAtK_cons_error hacc] at h; cases h
      | ok osub =>
        cases osub with
        | none =>
          rw [writeAtK_cons_none hacc] at h
          obtain rfl := Except.ok.inj h
          rw [writeAtK_cons_none hacc]
        | some sub =>
          cases hw : writeAtK sub (k2 :: rest2) v with
          | error e => rw [writeAtK_cons_some_error hacc hw] at h; cases h
          | ok sub2 =>
            rw [writeAtK_cons_some_ok hacc hw] at h
            obtain rfl := Except.ok.inj h
            by_cases hc : isContainer doc = true
            · have hacc2 : jsAccess (jsSet doc k sub2) k = .ok (some sub2) :=
                jsAccess_jsSet_self sub2 hc hacc
              rw [writeAtK_cons_some_ok hacc2 (ih sub sub2 hw),
                jsSet_jsSet]
            · have hcf : isContainer doc = false := by
                cases hcc : isContainer doc
                · rfl
                · exact absurd hcc hc
              have hid : jsSet doc k sub2 = doc := by
                cases doc with
                | null => rfl
                | bool b => rfl
                | num n => rfl
                | str s => rfl
                | arr xs => exact Bool.noConfusion hcf
                | obj l => exact Bool.noConfusion hcf
              rw [hid, writeAtK_cons_some_ok hacc hw, hid]

theorem noop_inner {doc sub sub2 : Json} {k k2 : JsKey} {rest : List JsKey}
    {v : String}
    (hnoop : writeAtK doc (k :: k2 :: rest) v = .ok doc)
    (hacc : jsAccess doc k = .ok (some sub))
    (hw : writeAtK sub (k2 :: rest) v = .ok sub2) : sub2 = sub := by
  by_cases hc : isContainer doc = true
  · have heq : jsSet doc k sub2 = doc := by
      rw [writeAtK_cons_some_ok hacc hw] at hnoop
      exact Except.ok.inj hnoop
    have hS2 := jsAccess_jsSet_self sub2 hc hacc
    rw [heq, hacc] at hS2
    exact (Option.some.inj (Except.ok.inj hS2)).symm
  · have hcf : isContainer doc = false := by
      cases hcc : isContainer doc
      · rfl
      · exact absurd hcc hc
    exact writeAtK_primitive (k2 :: rest) (jsAccess_prim_sub hcf hacc) hw

end PatchEngine

namespace PatchEngine

/-! ## C6 — a write touches at most its head slot -/

theorem writeAtK_head_shape {doc Y : Json} {l : JsKey} {ls' : List JsKey}
    {u : String} (h : writeAtK doc (l :: ls') u = .ok Y) :
    Y = doc ∨ ∃ w, Y = jsSet doc l w := by
  cases ls' with
  | nil =>
    cases doc with
    | null => exact Or.inl (Except.ok.inj h).symm
    | bool b =>
        cases b with
        | false => exact Or.inl (Except.ok.inj h).symm
        | true => cases h
    | num n =>
        by_cases hn : n = 0
        · subst hn; exact Or.inl (Except.ok.inj h).symm
        · simp only [writeAtK, finalAssign, if_neg hn] at h; cases h
    | str s =>
        by_cases hs : s = ""
        · subst hs; exact Or.inl (Except.ok.inj h).symm
        · simp only [writeAtK, finalAssign, if_neg hs] at h; cases h
    | obj fs =>
        simp only [writeAtK, finalAssign] at h
        by_cases hg : (getField fs (keyStr l)).isSome = true
        · rw [if_pos hg] at h
          refine Or.inr ⟨.str u, ?_⟩
          rw [← Except.ok.inj h]
          rfl
        · rw [if_neg hg] at h
          exact Or.inl (Except.ok.inj h).symm
    | arr xs =>
        cases l with
        | num n =>
            simp only [writeAtK, finalAssign] at h
            by_cases hr : 0 ≤ n ∧ n.toNat < xs.length
            · rw [if_pos hr] at h
              refine Or.inr ⟨.str u, ?_⟩
              rw [← Except.ok.inj h]
              simp only [jsSet]
              rw [if_neg (by omega)]
            · rw [if_neg hr] at h
              exact Or.inl (Except.ok.inj h).symm
        | str s => exact Or.inl (Except.ok.inj h).symm
  | cons l2 ls'' =>
    cases hacc : jsAccess doc l with
    | error e => rw [writeAtK_cons_error hacc] at h; cases h
    | ok osub =>
      cases osub with
      | none =>
          rw [writeAtK_cons_none hacc] at h
          exact Or.inl (Except.ok.inj h).symm
      | some sub =>
          cases hw : writeAtK sub (l2 :: ls'') u with
          | error e => rw [writeAtK_cons_some_error hacc hw] at h; cases h
          | ok sub2 =>
              rw [writeAtK_cons_some_ok hacc hw] at h
              exact Or.inr ⟨sub2, (Except.ok.inj h).symm⟩

theorem finalAssign_after_jsSet {doc : Json} {k l : JsKey} {w : Json}
    {v : String} (hk : canonKey k) (hl : canonKey l) (hne : k ≠ l)
    (hnoop : finalAssign doc k v = .ok doc) :
    finalAssign (jsSet doc l w) k v = .ok (jsSet doc l w) := by
  have hstr : keyStr k ≠ keyStr l := keyStr_inj_canon hk hl hne
  cases doc with
  | null => exact hnoop
  | bool b => exact hnoop
  | num n => exact hnoop
  | str s => exact hnoop
  | obj fs =>
      simp only [finalAssign] at hnoop
      simp only [jsSet, finalAssign]
      rw [getField_setField_ne (fun hc => hstr hc.symm)]
      by_cases hg : (getField fs (keyStr k)).isSome = true
      · rw [if_pos hg] at hnoop ⊢
        have heq : setField fs (keyStr k) (.str v) = fs :=
          Json.obj.inj (Except.ok.inj hnoop)
        rw [setField_comm (fun hc => hstr hc.symm), heq]
      · rw [if_neg hg] at hnoop ⊢
  | arr xs =>
      cases k with
      | str s =>
          cases l with
          | num m =>
              simp only [jsSet]
              rfl
          | str s2 => exact hnoop
      | num n =>
          cases l with
          | str s2 => exact hnoop
          | num m =>
              have hnm : n ≠ m := fun hc => hne (by rw [hc])
              simp only [finalAssign] at hnoop
              simp only [jsSet]
              by_cases hm : m < 0
              · rw [if_pos hm]
                simp only [finalAssign]
                exact hnoop
              · rw [if_neg hm]
                simp only [finalAssign, List.length_set]
                by_cases hr : 0 ≤ n ∧ n.toNat < xs.length
                · rw [if_pos hr] at hnoop ⊢
                  have heq : xs.set n.toNat (.str v) = xs :=
                    Json.arr.inj (Except.ok.inj hnoop)
                  have htn : m.toNat ≠ n.toNat := by omega
                  rw [List.set_comm _ _ _ htn, heq]
                · rw [if_neg hr] at hnoop ⊢

theorem noop_after_jsSet {v : String} :
    ∀ (ks : List JsKey) (doc : Json) (k l : JsKey) (w : Json),
      canonKey k → canonKey l → k ≠ l →
      writeAtK doc (k :: ks) v = .ok doc →
      writeAtK (jsSet doc l w) (k :: ks) v = .ok (jsSet doc l w) := by
  intro ks
  cases ks with
  | nil =>
    intro doc k l w hk hl hne hnoop
    exact finalAssign_after_jsSet hk hl hne hnoop
  | cons k2 ks' =>
    intro doc k l w hk hl hne hnoop
    cases hacc : jsAccess doc k with
    | error e => rw [writeAtK_cons_error hacc] at hnoop; cases hnoop
    | ok osub =>
      have haccY : jsAccess (jsSet doc l w) k = jsAccess doc k :=
        jsAccess_jsSet_ne w hk hl hne
      cases osub with
      | none => rw [writeAtK_cons_none (haccY.trans hacc)]
      | some sub =>
        cases hw : writeAtK sub (k2 :: ks') v with
        | error e => rw [writeAtK_cons_some_error hacc hw] at hnoop; cases hnoop
        | ok sub2 =>
          obtain rfl : sub2 = sub := noop_inner hnoop hacc hw
          rw [writeAtK_cons_some_ok (haccY.trans hacc) hw,
            jsSet_access_self (haccY.trans hacc)]

/-- A no-op operation stays a no-op after an unrelated (non-prefix,
non-equal path) write. -/
theorem noop_preserved {v u : String} :
    ∀ (ks : List JsKey), (∀ k ∈ ks, canonKey k) →
      ∀ (ls : List JsKey), (∀ l ∈ ls, canonKey l) →
        ks ≠ ls → keyPreB ks ls = false → keyPreB ls ks = false →
        ∀ (doc Y : Json),
          writeAtK doc ks v = .ok doc →
          writeAtK doc ls u = .ok Y →
          writeAtK Y ks v = .ok Y := by
  intro ks
  induction ks with
  | nil =>
    intro _ ls _ _ hpre1 _ doc Y _ _
    exact Bool.noConfusion hpre1
  | cons k ks' ih =>
    intro hcank ls hcanl hne hpre1 hpre2 doc Y hnoop hwrite
    cases ls with
    | nil => exact Bool.noConfusion hpre2
    | cons l ls' =>
      by_cases hkl : k = l
      · subst hkl
        have hpre1' : keyPreB ks' ls' = false := by
          simpa [keyPreB] using hpre1
        have hpre2' : keyPreB ls' ks' = false := by
          simpa [keyPreB] using hpre2
        have hne' : ks' ≠ ls' := fun hc => hne (by rw [hc])
        cases ks' with
        | nil => exact Bool.noConfusion hpre1'
        | cons k2 ks'' =>
          cases ls' with
          | nil => exact Bool.noConfusion hpre2'
          | cons l2 ls'' =>
            cases hacc : jsAccess doc k with
            | error e => rw [writeAtK_cons_error hacc] at hnoop; cases hnoop
            | ok osub =>
              cases osub with
              | none =>
                rw [writeAtK_cons_none hacc] at hwrite
                obtain rfl := Except.ok.inj hwrite
                exact hnoop
              | some sub =>
                cases hw : writeAtK sub (k2 :: ks'') v with
                | error e =>
                  rw [writeAtK_cons_some_error hacc hw] at hnoop
                  cases hnoop
                | ok sub2 =>
                  rw [noop_inner hnoop hacc hw] at hw
                  cases hwl : writeAtK sub (l2 :: ls'') u with
                  | error e =>
                    rw [writeAtK_cons_some_error hacc hwl] at hwrite
                    cases hwrite
                  | ok subY =>
                    rw [writeAtK_cons_some_ok hacc hwl] at hwrite
                    obtain rfl := Except.ok.inj hwrite
                    have hIH := ih
                      (fun x hx => hcank x (List.mem_cons_of_mem _ hx))
                      (l2 :: ls'')
                      (fun x hx => hcanl x (List.mem_cons_of_mem _ hx))
                      hne' hpre1' hpre2' sub subY hw hwl
                    by_cases hc : isContainer doc = true
                    · have hacc2 : jsAccess (jsSet doc k subY) k =
                          .ok (some subY) :=
                        jsAccess_jsSet_self subY hc hacc
                      rw [writeAtK_cons_some_ok hacc2 hIH, jsSet_jsSet]
                    · have hcf : isContainer doc = false := by
                        cases hcc : isContainer doc
                        · rfl
                        · exact absurd hcc hc
                      have hsubY : subY = sub :=
                        writeAtK_primitive (l2 :: ls'')
                          (jsAccess_prim_sub hcf hacc) hwl
                      rw [hsubY, jsSet_access_self hacc]
                      exact hnoop
      · have hk := hcank k (List.mem_cons_self k ks')
        have hl := hcanl l (List.mem_cons_self l ls')
        rcases writeAtK_head_shape hwrite with rfl | ⟨w, rfl⟩
        · exact hnoop
        · exact noop_after_jsSet ks' doc k l w hk hl hkl hnoop

end PatchEngine

namespace PatchEngine

/-! ## C6 — lifting replay and non-interference to operations -/

theorem applyPatchLocal_cons_error {doc : Json} {o : JsonPatchOp}
    {rest : List JsonPatchOp} {e : String} (h : applyOp doc o = .error e) :
    applyPatchLocal doc (o :: rest) = .error e := by
  simp only [applyPatchLocal, h]

theorem applyPatchLocal_cons_ok {doc d2 : Json} {o : JsonPatchOp}
    {rest : List JsonPatchOp} (h : applyOp doc o = .ok d2) :
    applyPatchLocal doc (o :: rest) = applyPatchLocal d2 rest := by
  simp only [applyPatchLocal, h]

theorem applyOp_replay {doc d2 : Json} {o : JsonPatchOp}
    (h : applyOp doc o = .ok d2) : applyOp d2 o = .ok d2 := by
  unfold applyOp at h ⊢
  by_cases hop : o.op = "replace"
  · rw [if_pos hop] at h ⊢
    exact writeAtK_replay _ _ _ h
  · rw [if_neg hop]

theorem applyOp_noop_preserved {doc Y : Json} {a b : JsonPatchOp}
    (hne : kpath a.path ≠ kpath b.path)
    (hp1 : keyPreB (kpath a.path) (kpath b.path) = false)
    (hp2 : keyPreB (kpath b.path) (kpath a.path) = false)
    (ha : applyOp doc a = .ok doc)
    (hb : applyOp doc b = .ok Y) :
    applyOp Y a = .ok Y := by
  by_cases hopa : a.op = "replace"
  · by_cases hopb : b.op = "replace"
    · unfold applyOp at ha hb ⊢
      rw [if_pos hopa] at ha ⊢
      rw [if_pos hopb] at hb
      exact noop_preserved (kpath a.path) (kpath_canon a.path)
        (kpath b.path) (kpath_canon b.path) hne hp1 hp2 doc Y ha hb
    · unfold applyOp at hb
      rw [if_neg hopb] at hb
      rw [← Except.ok.inj hb]
      exact ha
  · unfold applyOp
    rw [if_neg hopa]

theorem noop_through_patch {a : JsonPatchOp} :
    ∀ (R : List JsonPatchOp) (X X2 : Json),
      (∀ b ∈ R, kpath a.path ≠ kpath b.path ∧
        keyPreB (kpath a.path) (kpath b.path) = false ∧
        keyPreB (kpath b.path) (kpath a.path) = false) →
      applyOp X a = .ok X →
      applyPatchLocal X R = .ok X2 →
      applyOp X2 a = .ok X2 := by
  intro R
  induction R with
  | nil =>
    intro X X2 _ hnoop happ
    rw [← Except.ok.inj happ]
    exact hnoop
  | cons b R ih =>
    intro X X2 hrel hnoop happ
    cases hb : applyOp X b with
    | error e => rw [applyPatchLocal_cons_error hb] at happ; cases happ
    | ok X1 =>
      rw [applyPatchLocal_cons_ok hb] at happ
      obtain ⟨h1, h2, h3⟩ := hrel b (List.mem_cons_self b R)
      have hnoop1 : applyOp X1 a = .ok X1 :=
        applyOp_noop_preserved h1 h2 h3 hnoop hb
      exact ih X1 X2 (fun c hc => hrel c (List.mem_cons_of_mem _ hc))
        hnoop1 happ

/-- Re-applying a successfully applied non-overlapping patch leaves the
result fixed. -/
theorem applyPatchLocal_replay :
    ∀ (P : List JsonPatchOp), NonOverlapping P →
      ∀ (d d2 : Json), applyPatchLocal d P = .ok d2 →
        applyPatchLocal d2 P = .ok d2 := by
  intro P
  induction P with
  | nil =>
    intro _ d d2 h
    obtain rfl := Except.ok.inj h
    rfl
  | cons o R ih =>
    intro hno d d2 h
    have hrel := List.pairwise_cons.mp hno
    cases hb : applyOp d o with
    | error e => rw [applyPatchLocal_cons_error hb] at h; cases h
    | ok d1 =>
      rw [applyPatchLocal_cons_ok hb] at h
      have h1 : applyOp d1 o = .ok d1 := applyOp_replay hb
      have h2 : applyOp d2 o = .ok d2 :=
        noop_through_patch R d1 d2 hrel.1 h1 h
      rw [applyPatchLocal_cons_ok h2]
      exact ih hrel.2 d1 d2 h

/-- Claim C6, counterexample to unrestricted idempotence: on the document
`{"a": {"b": "x"}}`, the patch `[/a/b := "t", /a := "s"]` (two replace
operations, one path a prefix of the other) applies once successfully,
producing `{"a": "s"}`, but re-applying the same patch throws: the first
operation now traverses into the string `"s"` and the `in` operator on
that truthy primitive raises a TypeError, so apply(apply(D,P),P) is an
error while apply(D,P) succeeded. -/
theorem apply_twice_counterexample :
    applyPatchLocal (.obj [("a", .obj [("b", .str "x")])])
        [⟨"replace", "/a/b", "t"⟩, ⟨"replace", "/a", "s"⟩] =
      .ok (.obj [("a", .str "s")]) ∧
    (applyPatchLocal (.obj [("a", .obj [("b", .str "x")])])
        [⟨"replace", "/a/b", "t"⟩, ⟨"replace", "/a", "s"⟩]).bind
      (fun X => applyPatchLocal X
        [⟨"replace", "/a/b", "t"⟩, ⟨"replace", "/a", "s"⟩]) =
      .error "TypeError: cannot use in operator on a primitive" :=
  ⟨rfl, rfl⟩

/-- Claim C6 (amended): for every document D and every patch P whose
operations' addresses are pairwise distinct and mutually non-prefix (as is
the case for every patch the builder emits, whose paths all have exactly
four segments and are pairwise distinct), applying P twice gives the same
result as applying it once: apply(apply(D,P),P) == apply(D,P).  Without
the non-overlap restriction idempotence fails (see the counterexample):
an operation whose path runs through a slot that an overlapping operation
rewrote to a string throws a TypeError on the second application. -/
theorem apply_patch_idempotent (D : Json) (P : List JsonPatchOp)
    (h : NonOverlapping P) :
    (applyPatchLocal D P).bind (fun X => applyPatchLocal X P) =
      applyPatchLocal D P := by
  cases happ : applyPatchLocal D P with
  | error e => rfl
  | ok d2 => exact applyPatchLocal_replay P h D d2 happ

/-- Concrete instance of the amended C6: a two-operation patch at the
distinct non-nested addresses `/a` and `/b` is idempotent. -/
theorem apply_patch_idempotent_witness :
    NonOverlapping [⟨"replace", "/a", "s"⟩, ⟨"replace", "/b", "t"⟩] ∧
    (applyPatchLocal (.obj [("a", .str "x"), ("b", .str "y")])
        [⟨"replace", "/a", "s"⟩, ⟨"replace", "/b", "t"⟩]).bind
      (fun X => applyPatchLocal X
        [⟨"replace", "/a", "s"⟩, ⟨"replace", "/b", "t"⟩]) =
      applyPatchLocal (.obj [("a", .str "x"), ("b", .str "y")])
        [⟨"replace", "/a", "s"⟩, ⟨"replace", "/b", "t"⟩] :=
  ⟨by unfold NonOverlapping; decide, apply_patch_idempotent
    (.obj [("a", .str "x"), ("b", .str "y")])
    [⟨"replace", "/a", "s"⟩, ⟨"replace", "/b", "t"⟩]
    (by unfold NonOverlapping; decide)⟩

end PatchEngine

namespace PatchEngine

/-! ## C7 — totality of the build under unique verbatim matches -/

theorem freeAt_cons (used : List String) (w i : Nat) (p : Nat × Nat) :
    freeAt (mkKey w i :: used) p =
      (freeAt used p && !(decide (p = (w, i)))) := by
  by_cases hp : p = (w, i)
  · subst hp
    simp [freeAt, List.mem_cons]
  · have hk : mkKey p.1 p.2 ≠ mkKey w i := fun hc =>
      hp (by obtain ⟨h1, h2⟩ := mkKey_inj hc; exact Prod.ext h1 h2)
    simp [freeAt, List.mem_cons, hk, hp]

/-- Removing one occurrence of a member splits a `countP`. -/
theorem countP_erase {A : Type} [BEq A] [LawfulBEq A] (p : A → Bool) :
    ∀ (l : List A) (a : A), a ∈ l →
      l.countP p = (l.erase a).countP p + (if p a = true then 1 else 0) := by
  intro l
  induction l with
  | nil => intro a ha; cases ha
  | cons x xs ih =>
    intro a ha
    by_cases hxa : x = a
    · subst hxa
      rw [List.erase_cons_head, List.countP_cons]
    · have hmem : a ∈ xs := by
        rcases List.mem_cons.mp ha with h | h
        · exact absurd h.symm hxa
        · exact h
      have hbne : ¬ (x == a) = true := by simpa using hxa
      rw [List.erase_cons_tail hbne, List.countP_cons, List.countP_cons,
        ih a hmem]
      omega

theorem countP_erase_pos {A : Type} [BEq A] [LawfulBEq A] (p : A → Bool)
    (l : List A) (a : A) (ha : a ∈ l) (hpa : p a = true) :
    l.countP p = (l.erase a).countP p + 1 := by
  rw [countP_erase p l a ha, hpa]
  rfl

theorem countP_erase_neg {A : Type} [BEq A] [LawfulBEq A] (p : A → Bool)
    (l : List A) (a : A) (ha : a ∈ l) (hpa : p a = false) :
    l.countP p = (l.erase a).countP p := by
  rw [countP_erase p l a ha, hpa]
  rfl

/-- Counting argument: distinct strings, each realised as the bullet text
of some location of `L`, occupy at least as many locations of each
trim-class as there are strings in that class. -/
theorem countP_loc_le (work : List WorkItem) :
    ∀ (bs : List String) (L : List (Nat × Nat)), bs.Nodup →
      (∀ b ∈ bs, ∃ p ∈ L, bulletAt work p = b) →
      ∀ t : String, bs.countP (fun b => jsTrim b == t) ≤
        L.countP (fun p => jsTrim (bulletAt work p) == t) := by
  intro bs
  induction bs with
  | nil => intro L _ _ t; exact Nat.zero_le _
  | cons b bs ih =>
    intro L hnd hex t
    obtain ⟨p, hpL, hpb⟩ := hex b (List.mem_cons_self b bs)
    have hbnot := (List.nodup_cons.mp hnd).1
    have hnd' := (List.nodup_cons.mp hnd).2
    have hex' : ∀ b2 ∈ bs, ∃ q ∈ L.erase p, bulletAt work q = b2 := by
      intro b2 hb2
      obtain ⟨q, hqL, hqb⟩ := hex b2 (List.mem_cons_of_mem _ hb2)
      refine ⟨q, ?_, hqb⟩
      have hqp : q ≠ p := by
        intro hc
        subst hc
        rw [hpb] at hqb
        exact hbnot (by rw [hqb]; exact hb2)
      exact (List.mem_erase_of_ne hqp).mpr hqL
    have hIH := ih (L.erase p) hnd' hex' t
    have hsplit := countP_erase
      (fun p => jsTrim (bulletAt work p) == t) L p hpL
    rw [List.countP_cons, hsplit]
    by_cases hqt : (jsTrim b == t) = true
    · rw [if_pos hqt]
      have hpt : (jsTrim (bulletAt work p) == t) = true := by
        rw [hpb]; exact hqt
      rw [if_pos hpt]
      exact Nat.add_le_add_right hIH 1
    · rw [if_neg hqt]
      simpa using le_trans hIH (Nat.le_add_right _ _)

end PatchEngine

namespace PatchEngine

/-- While every remaining trim-class has at least as many free locations
as remaining suggestions, every suggestion is located (by the exact pass)
and the build emits one mapping entry per suggestion. -/
theorem buildAux_success (work : List WorkItem) :
    ∀ (rs : List Rewrite) (used : List String),
      (∀ t : String, rs.countP (fun r => jsTrim r.before == t) ≤
        (locsOf work).countP
          (fun p => freeAt used p && (jsTrim (bulletAt work p) == t))) →
      (buildAux work rs used).2.length = rs.length := by
  intro rs
  induction rs with
  | nil => intro used _; rfl
  | cons r rs ih =>
    intro used hinv
    have hpos : 0 < (locsOf work).countP
        (fun p => freeAt used p &&
          (jsTrim (bulletAt work p) == jsTrim r.before)) := by
      have h1 := hinv (jsTrim r.before)
      have h2 : 0 < (r :: rs).countP
          (fun r2 => jsTrim r2.before == jsTrim r.before) := by
        rw [List.countP_cons]
        simp
      omega
    obtain ⟨p0, hp0mem, hp0⟩ := List.countP_pos_iff.mp hpos
    have hfind : ((locsOf work).find?
        (fun p => freeAt used p &&
          (jsTrim (bulletAt work p) == jsTrim r.before))).isSome :=
      List.find?_isSome.mpr ⟨p0, hp0mem, hp0⟩
    obtain ⟨q, hq⟩ := Option.isSome_iff_exists.mp hfind
    obtain ⟨w, i⟩ := q
    have hqpred := List.find?_some hq
    have hqmem := List.mem_of_find?_eq_some hq
    have hq1 : freeAt used (w, i) = true ∧
        (jsTrim (bulletAt work (w, i)) == jsTrim r.before) = true := by
      simpa [Bool.and_eq_true] using hqpred
    have hqeq : jsTrim (bulletAt work (w, i)) = jsTrim r.before :=
      eq_of_beq hq1.2
    have hspec : locateSpec r.before work used = some (w, i) := by
      simp only [locateSpec]
      rw [hq]
      rfl
    have hloc : locateBullet r.before work used = some (w, i) :=
      (locateBullet_correct r.before work used).trans hspec
    have hinvNew : ∀ t : String,
        rs.countP (fun r2 => jsTrim r2.before == t) ≤
          (locsOf work).countP
            (fun p => freeAt (mkKey w i :: used) p &&
              (jsTrim (bulletAt work p) == t)) := by
      intro t
      have hold := hinv t
      have hswap : ∀ y : Nat × Nat,
          (freeAt (mkKey w i :: used) y && (jsTrim (bulletAt work y) == t)) =
            ((freeAt used y && (jsTrim (bulletAt work y) == t)) &&
              !(decide (y = (w, i)))) := by
        intro y
        rw [freeAt_cons]
        cases freeAt used y <;> cases (jsTrim (bulletAt work y) == t) <;>
          cases decide (y = (w, i)) <;> rfl
      have hcongr : (locsOf work).countP
          (fun p => freeAt (mkKey w i :: used) p &&
            (jsTrim (bulletAt work p) == t)) =
          (locsOf work).countP
            (fun p => (freeAt used p && (jsTrim (bulletAt work p) == t)) &&
              !(decide (p = (w, i)))) :=
        List.countP_congr (fun a _ => by rw [hswap a])
      have hnotmem : (w, i) ∉ (locsOf work).erase (w, i) :=
        (locsOf_nodup work).not_mem_erase
      cases hqt : (jsTrim (bulletAt work (w, i)) == t) with
      | true =>
        have hrt : (jsTrim r.before == t) = true := by
          rw [← hqeq]; exact hqt
        have hLHS : (r :: rs).countP (fun r2 => jsTrim r2.before == t) =
            rs.countP (fun r2 => jsTrim r2.before == t) + 1 := by
          rw [List.countP_cons, hrt]
          simp
        have hqP : (freeAt used (w, i) &&
            (jsTrim (bulletAt work (w, i)) == t)) = true := by
          rw [hq1.1, hqt]
          rfl
        have hRHSsplit := countP_erase_pos
          (fun p => freeAt used p && (jsTrim (bulletAt work p) == t))
          (locsOf work) (w, i) hqmem hqP
        have hqPnew : ((freeAt used (w, i) &&
            (jsTrim (bulletAt work (w, i)) == t)) &&
              !(decide ((w, i) = (w, i)))) = false := by
          simp
        have hNewsplit := countP_erase_neg
          (fun p => (freeAt used p && (jsTrim (bulletAt work p) == t)) &&
            !(decide (p = (w, i))))
          (locsOf work) (w, i) hqmem hqPnew
        have hsub : (((locsOf work).erase (w, i)).countP
            (fun p => (freeAt used p && (jsTrim (bulletAt work p) == t)) &&
              !(decide (p = (w, i))))) =
            (((locsOf work).erase (w, i)).countP
              (fun p => freeAt used p && (jsTrim (bulletAt work p) == t))) :=
          List.countP_congr (fun a ha => by
            have hane : a ≠ (w, i) := fun hc => hnotmem (hc ▸ ha)
            simp [hane])
        rw [hcongr, hNewsplit, hsub]
        rw [hLHS, hRHSsplit] at hold
        omega
      | false =>
        have hrt : (jsTrim r.before == t) = false := by
          rw [← hqeq]; exact hqt
        have hLHS : (r :: rs).countP (fun r2 => jsTrim r2.before == t) =
            rs.countP (fun r2 => jsTrim r2.before == t) := by
          rw [List.countP_cons, hrt]
          simp
        have hsame : (locsOf work).countP
            (fun p => (freeAt used p && (jsTrim (bulletAt work p) == t)) &&
              !(decide (p = (w, i)))) =
            (locsOf work).countP
              (fun p => freeAt used p && (jsTrim (bulletAt work p) == t)) :=
          List.countP_congr (fun a _ => by
            by_cases hc : a = (w, i)
            · subst hc
              simp [hqt]
            · simp [hc])
        rw [hcongr, hsame, ← hLHS]
        exact hold
    simp only [buildAux, hloc, List.length_cons]
    rw [ih (mkKey w i :: used) hinvNew]

end PatchEngine

namespace PatchEngine

/-- Claim C7: for every suggestion list whose `before` values are pairwise
distinct and each present verbatim in exactly one bullet of the document,
the build locates every suggestion, producing a mapping with exactly one
entry per suggestion (`mapping.length = S.length`), and no two entries
share an address. -/
theorem build_total_mapping (rs : List Rewrite) (work : List WorkItem)
    (hdist : (rs.map (fun r : Rewrite => r.before)).Nodup)
    (huniq : ∀ r ∈ rs, (locsOf work).countP
        (fun p => decide (bulletAt work p = r.before)) = 1) :
    (buildPatchFromRewrites rs work).2.length = rs.length ∧
    ((buildPatchFromRewrites rs work).2.map
        (fun m : MapEntry => (m.workIdx, m.idx))).Nodup := by
  refine ⟨?_, build_pairs_nodup rs work⟩
  unfold buildPatchFromRewrites
  apply buildAux_success
  intro t
  have hex : ∀ b ∈ rs.map (fun r : Rewrite => r.before),
      ∃ p ∈ locsOf work, bulletAt work p = b := by
    intro b hb
    obtain ⟨r, hr, rfl⟩ := List.mem_map.mp hb
    have h1 := huniq r hr
    have hpos : 0 < (locsOf work).countP
        (fun p => decide (bulletAt work p = r.before)) := by omega
    obtain ⟨p, hpmem, hp⟩ := List.countP_pos_iff.mp hpos
    exact ⟨p, hpmem, of_decide_eq_true hp⟩
  have hcle := countP_loc_le work (rs.map (fun r : Rewrite => r.before))
    (locsOf work) hdist hex t
  rw [List.countP_map] at hcle
  have hfree : (locsOf work).countP
      (fun p => freeAt [] p && (jsTrim (bulletAt work p) == t)) =
      (locsOf work).countP (fun p => jsTrim (bulletAt work p) == t) :=
    List.countP_congr (fun a _ => by simp [freeAt])
  rw [hfree]
  exact hcle

/-- Concrete instance of C7: two suggestions, each matching exactly one of
the two bullets, both get located and mapped. -/
theorem build_total_mapping_witness :
    ((([⟨"alpha", "A"⟩, ⟨"beta", "B"⟩] : List Rewrite).map
        (fun r : Rewrite => r.before)).Nodup) ∧
    (buildPatchFromRewrites [⟨"alpha", "A"⟩, ⟨"beta", "B"⟩]
        [⟨some ["alpha", "beta"]⟩]).2.length = 2 :=
  ⟨by decide, (build_total_mapping [⟨"alpha", "A"⟩, ⟨"beta", "B"⟩]
      [⟨some ["alpha", "beta"]⟩] (by decide) (by decide)).1⟩

end PatchEngine
